import Mathlib

/-!
Shallow embedding of the Multi-Taxi-Collaboration repository.

The embedding covers `TaxiWrapper/taxi_wrapper.py` (`EnvGraph`, `Taxi`),
`ControllerWrapper/controller_wrapper.py` (`Controller`'s transfer-point
algorithms and `find_closest_taxi`) and `Collaboration_Experiment.py`
(`no_collaboration_case`).

Grid cells are `(row, col)` pairs; the environment state mirrors the
`taxi_env.state` tuple (taxi locations, fuels, passenger start locations,
passenger destinations).  Fuels are integers because the code computes
`fuel - 1`, which can be negative.  Fallible Python code (exceptions such
as `networkx.NetworkXNoPath` or `IndexError`) is embedded in the `Option`
monad: `none` is an uncaught exception.
-/

namespace MultiTaxi

/-- A grid position `(row, col)`, the `[row, col]` lists of the Python code. -/
abbrev Cell := Nat × Nat

/-- The grid map, reduced to the data `EnvGraph.__init__` extracts from the
textual map description: the number of rows and columns and, for each cell,
whether a south edge and an east edge exist.  `south r c` corresponds to
`desc[r+2][2*c+1] != '-'` and `east r c` to `desc[r+1][2*c+2] == ':'`. -/
structure Grid where
  rows : Nat
  cols : Nat
  south : Nat → Nat → Bool
  east : Nat → Nat → Bool

/-- Character of a map description at a given row and column (the Python
string indexing `desc[i][j]`). -/
def charAt (desc : List String) (i j : Nat) : Char :=
  ((desc.getD i "").toList).getD j ' '

/-- `EnvGraph.__init__`: build the grid data from the textual map. -/
def Grid.ofDesc (desc : List String) : Grid where
  rows := desc.length - 2
  cols := (desc.headD "").length / 2
  south := fun r c => charAt desc (r + 2) (2 * c + 1) != '-'
  east := fun r c => charAt desc (r + 1) (2 * c + 2) == ':'

/-- Number of graph nodes, `rows * cols` (`nx.empty_graph(self.rows * self.cols)`). -/
def Grid.N (g : Grid) : Nat := g.rows * g.cols

/-- `EnvGraph.cors_to_node`. -/
def Grid.corsToNode (g : Grid) (c : Cell) : Nat := c.1 * g.cols + c.2

/-- `EnvGraph.node_to_cors`. -/
def Grid.nodeToCors (g : Grid) (i : Nat) : Cell := (i / g.cols, i % g.cols)

/-- Undirected adjacency of the graph built by `EnvGraph.__init__`: node `i`
gets an edge to `i + cols` when its south flag is set and to `i + 1` when its
east flag is set. -/
def Grid.adj (g : Grid) (i j : Nat) : Bool :=
  (j == i + g.cols && g.south (i / g.cols) (i % g.cols))
  || (i == j + g.cols && g.south (j / g.cols) (j % g.cols))
  || (j == i + 1 && g.east (i / g.cols) (i % g.cols))
  || (i == j + 1 && g.east (j / g.cols) (j % g.cols))

/-- Nodes reachable from `src` in at most `k` steps, the breadth-first layers
of the unweighted shortest-path search (`nx.shortest_path` runs BFS on this
graph; spec section 4.1 describes it as a unit-weight shortest-path search). -/
def Grid.reach (g : Grid) (src : Nat) : Nat → List Nat
  | 0 => [src]
  | k + 1 =>
    let r := g.reach src k
    (List.range g.N).filter (fun v => r.contains v || r.any (fun u => g.adj u v))

/-- First `n ≥ start` with `p n = true`, trying at most `fuelLeft` values. -/
def searchFrom (p : Nat → Bool) : Nat → Nat → Option Nat
  | _, 0 => none
  | start, fuelLeft + 1 =>
    if p start then some start else searchFrom p (start + 1) fuelLeft

/-- Shortest-path distance between two nodes: the first BFS layer containing
the target (`none` when the target is unreachable, modelling the
`networkx.NetworkXNoPath` exception). -/
def Grid.distN (g : Grid) (src dst : Nat) : Option Nat :=
  searchFrom (fun k => (g.reach src k).contains dst) 0 (g.N + 1)

/-- Reconstruct a node path of the BFS search: walk back from `dst` through
the BFS layers, picking for each layer a predecessor adjacent to the current
node.  Returns the node list from the first step up to and including `dst`
(the origin excluded). -/
def Grid.pathBack (g : Grid) (src : Nat) : Nat → Nat → List Nat
  | 0, _ => []
  | k + 1, dst =>
    if (g.reach src k).contains dst then g.pathBack src k dst
    else
      match (g.reach src k).find? (fun u => g.adj u dst) with
      | some u => g.pathBack src k u ++ [dst]
      | none => []

/-- The action encoding of a node step in `EnvGraph.get_path`:
`delta == -1` is west (3), `delta == 1` east (2), `delta == -cols` north (1),
anything else south (0). -/
def Grid.delta (g : Grid) (i j : Nat) : Nat :=
  if (j : Int) - (i : Int) = -1 then 3
  else if (j : Int) - (i : Int) = 1 then 2
  else if (j : Int) - (i : Int) = -(g.cols : Int) then 1
  else 0

/-- `EnvGraph.get_path`: the empty pair when origin and target coincide as
nodes, otherwise the shortest node path converted to coordinates (origin
excluded) together with the action sequence derived from consecutive node
deltas. -/
def Grid.getPath (g : Grid) (origin target : Cell) : Option (List Cell × List Nat) :=
  let nodeOrigin := g.corsToNode origin
  let nodeTarget := g.corsToNode target
  if nodeOrigin == nodeTarget then some ([], [])
  else
    match g.distN nodeOrigin nodeTarget with
    | none => none
    | some k =>
      let rest := g.pathBack nodeOrigin k nodeTarget
      let nodes := nodeOrigin :: rest
      some (rest.map g.nodeToCors, (nodes.zip nodes.tail).map (fun uv => g.delta uv.1 uv.2))

/-- `EnvGraph.path_cost`: the length of the action list of `get_path`. -/
def Grid.pathCost (g : Grid) (origin dest : Cell) : Option Nat :=
  (g.getPath origin dest).map (fun p => p.2.length)

/-- The slice of `taxi_env.state` read by the wrapper code: taxi locations,
taxi fuels, passenger start locations and passenger destinations. -/
structure EnvState where
  taxisLocations : List Cell
  fuels : List Int
  passStart : List Cell
  passDest : List Cell

/-- Number of taxis (`taxi_env.num_taxis`). -/
def EnvState.numTaxis (s : EnvState) : Nat := s.taxisLocations.length

/-- `state[TAXIS_LOCATIONS][i]`. -/
def EnvState.loc (s : EnvState) (i : Nat) : Cell := s.taxisLocations.getD i (0, 0)

/-- `state[FUELS][i]`. -/
def EnvState.fuel (s : EnvState) (i : Nat) : Int := s.fuels.getD i 0

/-- `state[PASSENGERS_START_LOCATION][i]`. -/
def EnvState.pStart (s : EnvState) (i : Nat) : Cell := s.passStart.getD i (0, 0)

/-- `state[PASSENGERS_DESTINATIONS][i]`. -/
def EnvState.pDest (s : EnvState) (i : Nat) : Cell := s.passDest.getD i (0, 0)

/-- Python list indexing with negative-index wrap-around: `l[i]` is
`l[len(l) + i]` for `i < 0`, and an `IndexError` (here `none`) when the
index is out of range either way. -/
def pyIndex {α : Type} (l : List α) (i : Int) : Option α :=
  if 0 ≤ i then l.get? i.toNat
  else
    let j : Int := (l.length : Int) + i
    if 0 ≤ j then l.get? j.toNat else none

/-- `x < acc` where `acc` starts as `np.inf` (`none`). -/
def ltInf (x : Int) : Option Int → Bool
  | none => true
  | some y => decide (x < y)

/-- `x < acc` for a natural-number distance, `acc` starting as `np.inf`. -/
def ltInfN (x : Nat) : Option Nat → Bool
  | none => true
  | some y => decide (x < y)

/-- Python's `min(l, key=key)`: the first element of `l` attaining the
minimal key (`none` on the empty list, where Python raises `ValueError`). -/
def minByKey {α β : Type} [LinearOrder β] (key : α → β) : List α → Option α
  | [] => none
  | x :: xs => some (xs.foldl (fun b y => if key y < key b then y else b) x)

/-- The body of the `for point in to_taxi_shortest_path` loop of
`find_transfer_point_h1`: the pair of the sender's remaining (off-road) path
length towards `point` and the furthest point the sender can get to. -/
def offRoadEntry (g : Grid) (s : EnvState) (fromI : Nat) (fromTaxiRemainingFuel : Int)
    (point : Cell) : Option (Int × Cell) := do
  let p2 ← g.getPath (s.loc fromI) point
  let pathCords := s.loc fromI :: p2.1
  let remainingPath : Int := max 0 ((p2.2.length : Int) - fromTaxiRemainingFuel)
  if remainingPath > 0 then do
    let cell ← pyIndex pathCords (min fromTaxiRemainingFuel (p2.2.length : Int))
    pure (remainingPath, cell)
  else
    pure ((0 : Int), point)

/-- `Controller.find_transfer_point_h1`. -/
def findTransferPointH1 (g : Grid) (s : EnvState) (fromI toI pI : Nat) : Option Cell := do
  let p1 ← g.getPath (s.loc toI) (s.pDest pI)
  let toTaxiShortestPath := s.loc toI :: p1.1
  let offRoadDistances ← toTaxiShortestPath.mapM (offRoadEntry g s fromI (s.fuel fromI - 1))
  let best ← minByKey (fun t : Int × Cell => t.1) offRoadDistances
  pure best.2

/-- `Controller.find_transfer_point_h2`. -/
def findTransferPointH2 (g : Grid) (s : EnvState) (fromI pI : Nat) : Option Cell := do
  let p1 ← g.getPath (s.loc fromI) (s.pDest pI)
  let shortestPath := s.loc fromI :: p1.1
  pyIndex shortestPath (max 0 (min (s.fuel fromI - 1) ((shortestPath.length : Int) - 1)))

/-- The grid cells in the row-major scan order of
`find_optimal_transfer_point`'s nested `for row … for col` loops. -/
def cellsRowMajor (g : Grid) : List Cell :=
  (List.range g.rows).flatMap (fun row => (List.range g.cols).map (fun col => (row, col)))

/-- The `dist_from_dest` that `find_optimal_transfer_point` computes for a
transfer point the sender can afford: the receiver-unreachable branch scores
the plain distance to the destination, the other branch scores
`max(0, receiver_cost_to_point + cost_point_to_dest - (receiver_fuel - 1))`. -/
def transferScore (g : Grid) (s : EnvState) (toI : Nat) (dest tp : Cell) : Option Int := do
  let pathToPointCost ← g.pathCost (s.loc toI) tp
  if (pathToPointCost : Int) > s.fuel toI - 1 then
    let d ← g.pathCost tp dest
    pure (d : Int)
  else
    let c ← g.pathCost tp dest
    pure (max 0 ((pathToPointCost : Int) + (c : Int) - (s.fuel toI - 1)))

/-- One iteration of the `find_optimal_transfer_point` scan: skip the cell if
the sender cannot afford it, otherwise keep it when its score beats the
current minimum. -/
def optStep (g : Grid) (s : EnvState) (fromI toI : Nat) (dest : Cell)
    (acc : Option Cell × Option Int) (tp : Cell) : Option (Option Cell × Option Int) := do
  let pathToPointCost ← g.pathCost (s.loc fromI) tp
  if (pathToPointCost : Int) > s.fuel fromI - 1 then pure acc
  else do
    let distFromDest ← transferScore g s toI dest tp
    if ltInf distFromDest acc.2 then pure (some tp, some distFromDest) else pure acc

/-- The full scan of `find_optimal_transfer_point`, returning both
`best_transfer_point` (`none` is the initial `[]`) and `min_dist_from_dest`
(`none` is the initial `np.inf`). -/
def optFold (g : Grid) (s : EnvState) (fromI toI pI : Nat) : Option (Option Cell × Option Int) :=
  (cellsRowMajor g).foldlM (optStep g s fromI toI (s.pDest pI)) (none, none)

/-- `Controller.find_optimal_transfer_point`: the inner `none` is the `[]`
returned when no cell was affordable for the sender. -/
def findOptimalTransferPoint (g : Grid) (s : EnvState) (fromI toI pI : Nat) :
    Option (Option Cell) :=
  (optFold g s fromI toI pI).map Prod.fst

/-- The body of the `for taxi in self.taxis` loop of `find_closest_taxi`:
update the pair of closest distance (initially `np.inf`) and closest index
(initially `-1`). -/
def closestStep (g : Grid) (s : EnvState) (dest : Cell) (acc : Option Nat × Int) (i : Nat) :
    Option (Option Nat × Int) := do
  let taxiDistance ← g.pathCost (s.loc i) dest
  if ltInfN taxiDistance acc.1 && decide ((taxiDistance : Int) < s.fuel i) then
    pure (some taxiDistance, (i : Int))
  else pure acc

/-- `Controller.find_closest_taxi`. -/
def findClosestTaxi (g : Grid) (s : EnvState) (dest : Cell) : Option Int := do
  let r ← (List.range s.numTaxis).foldlM (closestStep g s dest) (none, -1)
  pure r.2

/-- The body of the `for taxi in taxis` loop of `no_collaboration_case`:
extend the capable list and lower the minimum distance from the destination. -/
def noCollabStep (g : Grid) (s : EnvState) (passengerLocation : Cell)
    (pathToDestinationCost : Nat) (acc : List Nat × Int) (i : Nat) :
    Option (List Nat × Int) := do
  let pathToPassengerCost ← g.pathCost (s.loc i) passengerLocation
  let totalPathCost : Int := (pathToPassengerCost : Int) + (pathToDestinationCost : Int)
  let taxiFuel := s.fuel i
  let distFromDest := max 0 (totalPathCost - (taxiFuel - 1))
  pure (if totalPathCost < taxiFuel then acc.1 ++ [i] else acc.1, min acc.2 distFromDest)

/-- `no_collaboration_case` from `Collaboration_Experiment.py`. -/
def noCollaborationCase (g : Grid) (s : EnvState) (pI : Nat) : Option (List Nat × Int) := do
  let passengerLocation := s.pStart pI
  let passengerDestination := s.pDest pI
  let pathToDestinationCost ← g.pathCost passengerLocation passengerDestination
  (List.range s.numTaxis).foldlM
    (noCollabStep g s passengerLocation pathToDestinationCost)
    ([], (pathToDestinationCost : Int))

/-- The per-taxi mutable state of the `Taxi` wrapper: the FIFO action queue
and the ordered list of assigned passengers. -/
structure TaxiState where
  actionsQueue : List Nat
  assignedPassengers : List Nat
deriving DecidableEq, Repr

/-- `Taxi.send_taxi_to_point`. -/
def sendTaxiToPoint (g : Grid) (s : EnvState) (i : Nat) (ts : TaxiState) (point : Cell) :
    Option TaxiState := do
  let p ← g.getPath (s.loc i) point
  pure { ts with actionsQueue := ts.actionsQueue ++ p.2 }

/-- `Taxi.send_taxi_to_pickup`.  `pickupIdx` is the environment's
`action_index_dictionary['pickup']`.  Note the Python guard
`passenger_index if passenger_index else self.assigned_passengers[0]` is
truthiness-based, so an explicit `passenger_index = 0` falls through to the
head of the assignment list (an `IndexError`, here `none`, when that list is
empty). -/
def sendTaxiToPickup (g : Grid) (s : EnvState) (i pickupIdx : Nat) (ts : TaxiState)
    (passengerIndex : Option Nat) : Option TaxiState :=
  if ts.assignedPassengers.isEmpty && passengerIndex.isNone then some ts
  else do
    let pickupPassenger ←
      match passengerIndex with
      | some k => if k ≠ 0 then some k else ts.assignedPassengers.head?
      | none => ts.assignedPassengers.head?
    let ts2 ← sendTaxiToPoint g s i ts (s.pStart pickupPassenger)
    pure { ts2 with actionsQueue := ts2.actionsQueue ++ [pickupIdx] }

/-- The allocation-bid message broadcast by `passenger_allocation_message`. -/
structure AllocMessage where
  taxiIndex : Nat
  passengerIndex : Nat
  pickupCost : Nat
deriving DecidableEq, Repr

/-- `Taxi.decide_assignments`: scan the communication channel keeping the
first strictly-smaller bid, append the last-seen passenger index to the own
assignment list when the winning bidder is this taxi, and clear the channel.
Returns the updated taxi state and the cleared channel. -/
def decideAssignments (selfIndex : Nat) (ts : TaxiState) (channel : List AllocMessage) :
    TaxiState × List AllocMessage :=
  let r := channel.foldl
    (fun (acc : Option Nat × Int × Option Nat) m =>
      if ltInfN m.pickupCost acc.1 then (some m.pickupCost, (m.taxiIndex : Int), some m.passengerIndex)
      else (acc.1, acc.2.1, some m.passengerIndex))
    (none, -1, none)
  let ts2 :=
    if r.2.1 = (selfIndex : Int) then
      { ts with assignedPassengers := ts.assignedPassengers ++ [(r.2.2).getD 0] }
    else ts
  (ts2, [])

/-! ### Spec-side definitions

Definitions in this section follow the wording of the specification and of
the claims (they are compared with the translated code above in refinement
theorems), together with well-formedness predicates for grids and the
concrete grids and states used by witnesses and counterexamples. -/

/-- Spec section 8: applying a returned directional action to a cell,
`0 = south, 1 = north, 2 = east, 3 = west`. -/
def applyAct (c : Cell) (a : Nat) : Cell :=
  if a = 0 then (c.1 + 1, c.2)
  else if a = 1 then (c.1 - 1, c.2)
  else if a = 2 then (c.1, c.2 + 1)
  else (c.1, c.2 - 1)

/-- The cells visited when applying a list of directional actions one step at
a time from a starting cell. -/
def trace (c : Cell) : List Nat → List Cell
  | [] => []
  | a :: rest => applyAct c a :: trace (applyAct c a) rest

/-- A well-formed bordered map has no permeable marker on its right border,
so the east edges added by `EnvGraph.__init__` never wrap to the next row. -/
def Grid.NoWrap (g : Grid) : Prop := ∀ r < g.rows, g.east r (g.cols - 1) = false

/-- A cell that lies on the grid. -/
def Grid.ValidCell (g : Grid) (c : Cell) : Prop := c.1 < g.rows ∧ c.2 < g.cols

/-- `b` is reachable from `a`: it occurs in the breadth-first layer `N` of
`a` (every connected pair is reachable within `N = rows*cols` steps). -/
def Grid.Conn (g : Grid) (a b : Cell) : Prop :=
  (g.reach (g.corsToNode a) g.N).contains (g.corsToNode b) = true

/-- Every pair of on-grid cells is connected (true of the maps the
experiments run on); stated with bounded quantifiers so it is decidable. -/
def Grid.Connected (g : Grid) : Prop :=
  ∀ r < g.rows, ∀ c < g.cols, ∀ r2 < g.rows, ∀ c2 < g.cols, g.Conn (r, c) (r2, c2)

instance (g : Grid) : Decidable g.NoWrap :=
  inferInstanceAs (Decidable (∀ r < g.rows, g.east r (g.cols - 1) = false))

instance (g : Grid) (c : Cell) : Decidable (g.ValidCell c) :=
  inferInstanceAs (Decidable (c.1 < g.rows ∧ c.2 < g.cols))

instance (g : Grid) (a b : Cell) : Decidable (g.Conn a b) :=
  inferInstanceAs (Decidable (_ = true))

instance (g : Grid) : Decidable g.Connected :=
  inferInstanceAs (Decidable (∀ r < g.rows, ∀ c < g.cols, ∀ r2 < g.rows, ∀ c2 < g.cols,
    g.Conn (r, c) (r2, c2)))

/-- Total shortest-path cost, with an out-of-range default on unreachable
pairs; used by the spec-side definitions, which the refinement theorems
relate to the `Option`-valued code under connectivity hypotheses. -/
def Grid.costD (g : Grid) (a b : Cell) : Nat := (g.pathCost a b).getD (g.N + 1)

/-- The residual distance from the destination achieved by a transfer at
`tp`, as scored by the exhaustive strategy: the plain distance to the
destination when the receiver cannot afford `tp`, otherwise
`max(0, receiver_cost_to_tp + cost_tp_to_dest - (receiver_fuel - 1))`. -/
def residualAt (g : Grid) (s : EnvState) (toI : Nat) (dest tp : Cell) : Int :=
  if (g.costD (s.loc toI) tp : Int) > s.fuel toI - 1 then (g.costD tp dest : Int)
  else max 0 ((g.costD (s.loc toI) tp : Int) + (g.costD tp dest : Int) - (s.fuel toI - 1))

/-- The score claimed for the exhaustive strategy, read literally: the
second branch adds the SENDER's cost to the cell
(`sender_cost_to_cell + receiver_cost_from_cell_to_dest`). -/
def claimScoreSender (g : Grid) (s : EnvState) (fromI toI : Nat) (dest tp : Cell) : Int :=
  if (g.costD (s.loc toI) tp : Int) > s.fuel toI - 1 then (g.costD tp dest : Int)
  else max 0 ((g.costD (s.loc fromI) tp : Int) + (g.costD tp dest : Int) - (s.fuel toI - 1))

/-- The cells of the row-major scan that are not skipped: the sender's cost
to the cell does not exceed `sender_fuel - 1`. -/
def affordableCells (g : Grid) (s : EnvState) (fromI : Nat) : List Cell :=
  (cellsRowMajor g).filter (fun tp => decide ((g.costD (s.loc fromI) tp : Int) ≤ s.fuel fromI - 1))

/-- The claimed description of `find_optimal_transfer_point`, read literally
with the sender-cost score: first minimum in row-major order over the
non-skipped cells. -/
def claimOptimalSender (g : Grid) (s : EnvState) (fromI toI pI : Nat) : Option Cell :=
  minByKey (claimScoreSender g s fromI toI (s.pDest pI)) (affordableCells g s fromI)

/-- The amended description of `find_optimal_transfer_point`: same scan, but
the second branch of the score uses the receiver's cost to the cell, which is
exactly `residualAt`. -/
def specOptimalReceiver (g : Grid) (s : EnvState) (fromI toI pI : Nat) : Option Cell :=
  minByKey (residualAt g s toI (s.pDest pI)) (affordableCells g s fromI)

/-- H1's candidate scoring per the claim: the sender's shortfall
`max(0, sender_cost_to_candidate - (sender_fuel - 1))`. -/
def h1Shortfall (g : Grid) (s : EnvState) (fromI : Nat) (p : Cell) : Int :=
  max 0 ((g.costD (s.loc fromI) p : Int) - (s.fuel fromI - 1))

/-- The point associated with an H1 candidate per the claim: the candidate
itself when the sender's shortfall is zero, otherwise the furthest cell the
sender can reach towards the candidate within `sender_fuel - 1` steps (the
cell of the sender's path, own location prepended, at index
`sender_fuel - 1` clamped into `[0, path length]`). -/
def specH1Point (g : Grid) (s : EnvState) (fromI : Nat) (point : Cell) : Cell :=
  if h1Shortfall g s fromI point = 0 then point
  else
    match g.getPath (s.loc fromI) point with
    | none => point
    | some p2 => (s.loc fromI :: p2.1).getD (min (s.fuel fromI - 1).toNat p2.2.length)
        (s.loc fromI)

/-- The claimed description of `find_transfer_point_h1`: enumerate the
receiver's location followed by the cells of its shortest path to the
destination, pick the first candidate of minimal sender shortfall, and
return the associated point of that candidate. -/
def specTransferH1 (g : Grid) (s : EnvState) (fromI toI pI : Nat) : Option Cell := do
  let p1 ← g.getPath (s.loc toI) (s.pDest pI)
  let best ← minByKey (h1Shortfall g s fromI) (s.loc toI :: p1.1)
  pure (specH1Point g s fromI best)

/-- The claimed description of `find_transfer_point_h2`: the cell of the
sender's shortest path to the destination (current location prepended as
index 0) at index `sender_fuel - 1` clamped into `[0, L]`, `L` the length of
the action sequence. -/
def specTransferH2 (g : Grid) (s : EnvState) (fromI pI : Nat) : Option Cell := do
  let p1 ← g.getPath (s.loc fromI) (s.pDest pI)
  pure ((s.loc fromI :: p1.1).getD (min (s.fuel fromI - 1).toNat p1.2.length) (s.loc fromI))

/-- Total pickup-plus-delivery cost of taxi `i` for passenger `pI`
(`cost(taxi→passenger) + cost(passenger→destination)`). -/
def totalPathCostD (g : Grid) (s : EnvState) (pI i : Nat) : Int :=
  (g.costD (s.loc i) (s.pStart pI) : Int) + (g.costD (s.pStart pI) (s.pDest pI) : Int)

/-- The claimed capable set of `no_collaboration_case`: taxis whose total
cost is strictly below their fuel. -/
def specCapableTaxis (g : Grid) (s : EnvState) (pI : Nat) : List Nat :=
  (List.range s.numTaxis).filter (fun i => decide (totalPathCostD g s pI i < s.fuel i))

/-- A taxi's achievable shortfall, `max(0, totalCost - (fuel - 1))`. -/
def taxiShortfallD (g : Grid) (s : EnvState) (pI i : Nat) : Int :=
  max 0 (totalPathCostD g s pI i - (s.fuel i - 1))

/-- The claimed minimum distance of `no_collaboration_case`: the minimum of
the per-taxi shortfalls, capped above by the passenger's direct path cost. -/
def specMinDistFromDest (g : Grid) (s : EnvState) (pI : Nat) : Int :=
  ((List.range s.numTaxis).map (taxiShortfallD g s pI)).foldl min
    ((g.costD (s.pStart pI) (s.pDest pI) : Int))

/-- The claimed description of `find_closest_taxi`: the first taxi of
minimal distance among those whose distance is strictly below their fuel,
`-1` when there is none. -/
def specClosestTaxi (g : Grid) (s : EnvState) (dest : Cell) : Int :=
  match minByKey (fun i => g.costD (s.loc i) dest)
      ((List.range s.numTaxis).filter (fun i => decide ((g.costD (s.loc i) dest : Int) < s.fuel i))) with
  | none => -1
  | some i => (i : Int)

/-- The claimed condition of `decide_assignments`: the minimum bid over the
received messages is first attained by a message sent by this taxi. -/
def winsAllocation (selfIndex : Nat) (channel : List AllocMessage) : Bool :=
  match minByKey AllocMessage.pickupCost channel with
  | some m => m.taxiIndex == selfIndex
  | none => false

/-! ### Pure counterparts of the monadic loop bodies

On a connected grid every path-cost lookup succeeds, and each monadic loop
body equals the corresponding pure step below; the refinement proofs go
through these. -/

/-- `closestStep` with the path cost evaluated. -/
def closestStepP (g : Grid) (s : EnvState) (dest : Cell) (acc : Option Nat × Int) (i : Nat) :
    Option Nat × Int :=
  if ltInfN (g.costD (s.loc i) dest) acc.1 && decide ((g.costD (s.loc i) dest : Int) < s.fuel i)
  then (some (g.costD (s.loc i) dest), (i : Int)) else acc

/-- `noCollabStep` with the path cost evaluated. -/
def noCollabStepP (g : Grid) (s : EnvState) (pLoc : Cell) (c0 : Nat)
    (acc : List Nat × Int) (i : Nat) : List Nat × Int :=
  ((if (g.costD (s.loc i) pLoc : Int) + (c0 : Int) < s.fuel i then acc.1 ++ [i] else acc.1),
    min acc.2 (max 0 ((g.costD (s.loc i) pLoc : Int) + (c0 : Int) - (s.fuel i - 1))))

/-- `optStep` with the path costs evaluated: skip unaffordable cells, keep
the first strict improvement of the residual score. -/
def optStepP (g : Grid) (s : EnvState) (fromI toI : Nat) (dest : Cell)
    (acc : Option Cell × Option Int) (tp : Cell) : Option Cell × Option Int :=
  if (g.costD (s.loc fromI) tp : Int) ≤ s.fuel fromI - 1 then
    (if ltInf (residualAt g s toI dest tp) acc.2 then
      (some tp, some (residualAt g s toI dest tp)) else acc)
  else acc

/-! ### Concrete grids and states for witnesses and counterexamples -/

/-- A bordered 1-row, 4-column map with all interior east passages open. -/
def lineDesc : List String := ["+-------+", "| : : : |", "+-------+"]

/-- The grid of `lineDesc`: a path graph on the cells `(0,0) … (0,3)`. -/
def lineG : Grid := Grid.ofDesc lineDesc

/-- A bordered 2-row, 1-column map whose two cells are connected by a south
edge. -/
def vertDesc : List String := ["+-+", "| |", "| |", "+-+"]

/-- The grid of `vertDesc`. -/
def vertG : Grid := Grid.ofDesc vertDesc

/-- Sender taxi 0 at `(0,1)` with fuel 10, receiver taxi 1 at `(0,0)` with
fuel 3, passenger destination `(0,3)`. -/
def stateA : EnvState :=
  { taxisLocations := [(0, 1), (0, 0)], fuels := [10, 3],
    passStart := [(0, 0)], passDest := [(0, 3)] }

/-- Sender taxi 0 at `(0,0)` with fuel 0, receiver taxi 1 at `(0,3)` with
fuel 5, passenger destination `(0,2)`. -/
def stateB : EnvState :=
  { taxisLocations := [(0, 0), (0, 3)], fuels := [0, 5],
    passStart := [(0, 0)], passDest := [(0, 2)] }

/-- Sender taxi 0 at `(0,0)` with fuel 3, receiver taxi 1 at `(0,3)` with
fuel 2, passenger destination `(0,3)`. -/
def stateC : EnvState :=
  { taxisLocations := [(0, 0), (0, 3)], fuels := [3, 2],
    passStart := [(0, 0)], passDest := [(0, 3)] }

/-- One taxi at `(0,0)` with fuel 5; passenger 0 starts at `(0,0)`,
passenger 1 at `(0,2)`. -/
def stateD : EnvState :=
  { taxisLocations := [(0, 0)], fuels := [5],
    passStart := [(0, 0), (0, 2)], passDest := [(0, 3), (0, 3)] }

/-- Two taxis at `(0,0)` (fuel 4) and `(0,3)` (fuel 1); passenger from
`(0,1)` to `(0,3)`. -/
def stateE : EnvState :=
  { taxisLocations := [(0, 0), (0, 3)], fuels := [4, 1],
    passStart := [(0, 1)], passDest := [(0, 3)] }

/-! ### Lemmas: the breadth-first search engine -/

theorem contains_eq_mem {l : List Nat} {v : Nat} : l.contains v = true ↔ v ∈ l := by
  simp [List.contains]

theorem searchFrom_eq_some {p : Nat → Bool} :
    ∀ {fuelLeft start k : Nat}, searchFrom p start fuelLeft = some k →
      p k = true ∧ start ≤ k ∧ ∀ j, start ≤ j → j < k → p j = false := by
  intro fuelLeft
  induction fuelLeft with
  | zero => intro start k h; simp [searchFrom] at h
  | succ n ih =>
    intro start k h
    by_cases hp : p start = true
    · simp [searchFrom, hp] at h
      subst h
      exact ⟨hp, Nat.le_refl _, fun j h1 h2 => absurd h2 (by omega)⟩
    · simp [searchFrom, hp] at h
      obtain ⟨h1, h2, h3⟩ := ih h
      refine ⟨h1, by omega, fun j hj1 hj2 => ?_⟩
      rcases Nat.eq_or_lt_of_le hj1 with rfl | hlt
      · exact Bool.not_eq_true _ ▸ (by simpa using hp)
      · exact h3 j hlt hj2

theorem searchFrom_some_of {p : Nat → Bool} :
    ∀ {fuelLeft start k : Nat}, p k = true → start ≤ k → k < start + fuelLeft →
      ∃ j, searchFrom p start fuelLeft = some j ∧ j ≤ k := by
  intro fuelLeft
  induction fuelLeft with
  | zero => intro start k _ h1 h2; omega
  | succ n ih =>
    intro start k hk h1 h2
    by_cases hp : p start = true
    · exact ⟨start, by simp [searchFrom, hp], h1⟩
    · have hne : start ≠ k := fun he => hp (he ▸ hk)
      obtain ⟨j, hj1, hj2⟩ := @ih (start + 1) k hk (by omega) (by omega)
      exact ⟨j, by simp [searchFrom, hp, hj1], hj2⟩

theorem mem_reach_zero {g : Grid} {src v : Nat} : v ∈ g.reach src 0 ↔ v = src := by
  simp [Grid.reach]

theorem mem_reach_succ {g : Grid} {src v k : Nat} :
    v ∈ g.reach src (k + 1) ↔
      v < g.N ∧ (v ∈ g.reach src k ∨ ∃ u ∈ g.reach src k, g.adj u v = true) := by
  simp [Grid.reach, List.mem_filter, List.contains]

theorem mem_reach_lt {g : Grid} {src v k : Nat} (hsrc : src < g.N)
    (h : v ∈ g.reach src k) : v < g.N := by
  cases k with
  | zero => exact mem_reach_zero.mp h ▸ hsrc
  | succ n => exact (mem_reach_succ.mp h).1

theorem reach_mono_succ {g : Grid} {src v k : Nat} (hsrc : src < g.N)
    (h : v ∈ g.reach src k) : v ∈ g.reach src (k + 1) :=
  mem_reach_succ.mpr ⟨mem_reach_lt hsrc h, Or.inl h⟩

theorem reach_mono {g : Grid} {src v : Nat} (hsrc : src < g.N) :
    ∀ {j k : Nat}, j ≤ k → v ∈ g.reach src j → v ∈ g.reach src k := by
  intro j k hjk
  induction k with
  | zero => intro h; exact (Nat.le_zero.mp hjk) ▸ h
  | succ n ih =>
    intro h
    rcases Nat.eq_or_lt_of_le hjk with rfl | hlt
    · exact h
    · exact reach_mono_succ hsrc (ih (by omega) h)

theorem chain_concat {r : Nat → Nat → Prop} :
    ∀ {l : List Nat} {a b : Nat}, List.Chain r a l → r (l.getLastD a) b →
      List.Chain r a (l ++ [b])
  | [], a, b, _, hr => List.Chain.cons hr List.Chain.nil
  | x :: l, a, b, hch, hr => by
    rw [List.getLastD_cons] at hr
    cases hch with
    | cons hax hch => exact List.Chain.cons hax (chain_concat hch hr)

theorem getD_length_eq_getLastD {α : Type} {l : List α} :
    ∀ {a d : α}, (a :: l).getD l.length d = l.getLastD a := by
  induction l with
  | nil => intro a d; rfl
  | cons x l ih =>
    intro a d
    rw [List.getLastD_cons]
    exact ih

theorem pathBack_spec {g : Grid} {src : Nat} (hsrc : src < g.N) :
    ∀ k, ∀ dst, dst ∈ g.reach src k →
      List.Chain (fun u v => g.adj u v = true) src (g.pathBack src k dst) ∧
      (g.pathBack src k dst).getLastD src = dst ∧
      (g.pathBack src k dst).length ≤ k ∧
      (∀ x ∈ g.pathBack src k dst, x < g.N) ∧
      (∀ i, i < (g.pathBack src k dst).length + 1 →
        (src :: g.pathBack src k dst).getD i 0 ∈ g.reach src i) := by
  intro k
  induction k with
  | zero =>
    intro dst hdst
    have hds : dst = src := mem_reach_zero.mp hdst
    subst hds
    simp only [Grid.pathBack]
    refine ⟨List.Chain.nil, rfl, Nat.le_refl _, by simp, ?_⟩
    intro i hi
    simp only [List.length_nil] at hi
    have hiz : i = 0 := by omega
    subst hiz
    simpa using mem_reach_zero.mpr rfl
  | succ n ih =>
    intro dst hdst
    by_cases hin : (g.reach src n).contains dst = true
    · have h := ih dst (contains_eq_mem.mp hin)
      simp only [Grid.pathBack, hin, if_true]
      exact ⟨h.1, h.2.1, Nat.le_succ_of_le h.2.2.1, h.2.2.2.1, h.2.2.2.2⟩
    · have hdst2 := mem_reach_succ.mp hdst
      have hnot : dst ∉ g.reach src n := fun hmem => hin (contains_eq_mem.mpr hmem)
      have hex : ∃ u ∈ g.reach src n, g.adj u dst = true := by
        rcases hdst2.2 with h | h
        · exact absurd h hnot
        · exact h
      have hfind : ((g.reach src n).find? (fun u => g.adj u dst)).isSome := by
        apply List.find?_isSome.mpr
        exact hex
      obtain ⟨u, hu⟩ := Option.isSome_iff_exists.mp hfind
      have humem : u ∈ g.reach src n := List.mem_of_find?_eq_some hu
      have huadj : g.adj u dst = true := by simpa using List.find?_some hu
      have h := ih u humem
      obtain ⟨hch, hlast, hlen, hbound, hpos⟩ := h
      have hulast : (src :: g.pathBack src n u).getD (g.pathBack src n u).length 0 = u := by
        rw [getD_length_eq_getLastD]; exact hlast
      have hureach : u ∈ g.reach src (g.pathBack src n u).length := by
        have := hpos (g.pathBack src n u).length (by omega)
        rwa [hulast] at this
      have hadj2 : g.adj ((g.pathBack src n u).getLastD src) dst = true := by
        rw [hlast]; exact huadj
      have hlenapp : (g.pathBack src n u ++ [dst]).length = (g.pathBack src n u).length + 1 := by
        simp
      have hcontains : (g.reach src n).contains dst = false := Bool.eq_false_iff.mpr hin
      have hpb : g.pathBack src (n + 1) dst = g.pathBack src n u ++ [dst] := by
        simp only [Grid.pathBack, hcontains, Bool.false_eq_true, if_false, hu]
      rw [hpb]
      refine ⟨?_, ?_, ?_, ?_, ?_⟩
      · exact chain_concat hch hadj2
      · exact List.getLastD_concat _ _ _
      · omega
      · intro x hx
        rcases List.mem_append.mp hx with h | h
        · exact hbound x h
        · have hxd : x = dst := by simpa using h
          exact hxd ▸ hdst2.1
      · intro i hi
        rw [hlenapp] at hi
        have hcons : src :: (g.pathBack src n u ++ [dst]) =
            (src :: g.pathBack src n u) ++ [dst] := by simp
        by_cases hile : i < (g.pathBack src n u).length + 1
        · rw [hcons, List.getD_append _ _ _ _ (by simpa using hile)]
          exact hpos i hile
        · have hieq : i = (g.pathBack src n u).length + 1 := by omega
          subst hieq
          rw [hcons, List.getD_append_right _ _ _ _ (by simp)]
          simp only [List.length_cons, Nat.sub_self]
          have : dst ∈ g.reach src ((g.pathBack src n u).length + 1) :=
            mem_reach_succ.mpr ⟨hdst2.1, Or.inr ⟨u, hureach, huadj⟩⟩
          simpa using this

theorem searchFrom_lt {p : Nat → Bool} :
    ∀ {fuelLeft start k : Nat}, searchFrom p start fuelLeft = some k → k < start + fuelLeft := by
  intro fuelLeft
  induction fuelLeft with
  | zero => intro start k h; simp [searchFrom] at h
  | succ n ih =>
    intro start k h
    by_cases hp : p start = true
    · simp [searchFrom, hp] at h; omega
    · simp [searchFrom, hp] at h
      have := @ih (start + 1) k h
      omega

theorem distN_mem {g : Grid} {o t k : Nat} (h : g.distN o t = some k) :
    t ∈ g.reach o k ∧ (∀ j, j < k → t ∉ g.reach o j) ∧ k ≤ g.N := by
  obtain ⟨h1, _, h3⟩ := searchFrom_eq_some h
  have h4 := searchFrom_lt h
  refine ⟨contains_eq_mem.mp h1, ?_, by omega⟩
  intro j hj hmem
  have := h3 j (Nat.zero_le _) hj
  rw [contains_eq_mem.mpr hmem] at this
  cases this

theorem distN_le {g : Grid} {o t i : Nat} (hmem : t ∈ g.reach o i) (hi : i ≤ g.N) :
    ∃ k, g.distN o t = some k ∧ k ≤ i := by
  obtain ⟨j, hj1, hj2⟩ :=
    @searchFrom_some_of (fun k => (g.reach o k).contains t) (g.N + 1) 0 i
      (contains_eq_mem.mpr hmem) (Nat.zero_le i) (by omega)
  exact ⟨j, hj1, hj2⟩

theorem distN_self {g : Grid} {o : Nat} : g.distN o o = some 0 := by
  simp [Grid.distN, searchFrom, Grid.reach]

theorem corsToNode_nodeToCors {g : Grid} (n : Nat) : g.corsToNode (g.nodeToCors n) = n := by
  simp [Grid.corsToNode, Grid.nodeToCors]
  rw [Nat.mul_comm]
  exact Nat.div_add_mod n g.cols

theorem nodeToCors_corsToNode {g : Grid} {c : Cell} (h : c.2 < g.cols) :
    g.nodeToCors (g.corsToNode c) = c := by
  obtain ⟨r, cc⟩ := c
  have hcc : cc < g.cols := h
  have hc : 0 < g.cols := by omega
  have h1 : (r * g.cols + cc) / g.cols = r := by
    rw [Nat.add_comm, Nat.add_mul_div_right _ _ hc, Nat.div_eq_of_lt hcc]
    exact Nat.zero_add r
  have h2 : (r * g.cols + cc) % g.cols = cc := by
    rw [Nat.add_comm, Nat.add_mul_mod_self_right, Nat.mod_eq_of_lt hcc]
  simp only [Grid.corsToNode, Grid.nodeToCors]
  rw [h1, h2]

theorem corsToNode_inj {g : Grid} {a b : Cell} (ha : a.2 < g.cols) (hb : b.2 < g.cols)
    (h : g.corsToNode a = g.corsToNode b) : a = b := by
  have := congrArg g.nodeToCors h
  rwa [nodeToCors_corsToNode ha, nodeToCors_corsToNode hb] at this

theorem validCell_node_lt {g : Grid} {c : Cell} (h : g.ValidCell c) : g.corsToNode c < g.N := by
  obtain ⟨h1, h2⟩ := h
  have : c.1 * g.cols + c.2 < (c.1 + 1) * g.cols := by
    rw [Nat.add_mul, Nat.one_mul]; omega
  calc g.corsToNode c < (c.1 + 1) * g.cols := this
    _ ≤ g.rows * g.cols := Nat.mul_le_mul_right _ (by omega)

theorem getD_map {α β : Type} (f : α → β) :
    ∀ (l : List α) (i : Nat) (d : α), (l.map f).getD i (f d) = f (l.getD i d) := by
  intro l
  induction l with
  | nil => intro i d; rfl
  | cons x xs ih =>
    intro i d
    cases i with
    | zero => rfl
    | succ n => exact ih n d

theorem getLastD_map {α β : Type} (f : α → β) (l : List α) (a : α) :
    (l.map f).getLastD (f a) = f (l.getLastD a) := by
  induction l generalizing a with
  | nil => rfl
  | cons x xs ih =>
    rw [List.map_cons, List.getLastD_cons, List.getLastD_cons]
    exact ih x

/-- `get_path` on two cells with the same node index. -/
theorem getPath_self {g : Grid} {origin target : Cell}
    (h : g.corsToNode origin = g.corsToNode target) :
    g.getPath origin target = some ([], []) := by
  simp [Grid.getPath, h]

/-- `get_path` on cells with distinct node indices, when the target is
reachable: the BFS layer index and the reconstructed path. -/
theorem getPath_of_ne {g : Grid} {origin target : Cell}
    (hne : g.corsToNode origin ≠ g.corsToNode target)
    (hconn : g.Conn origin target) :
    ∃ k, g.distN (g.corsToNode origin) (g.corsToNode target) = some k ∧
      g.getPath origin target = some
        ((g.pathBack (g.corsToNode origin) k (g.corsToNode target)).map g.nodeToCors,
          ((g.corsToNode origin :: g.pathBack (g.corsToNode origin) k (g.corsToNode target)).zip
            (g.pathBack (g.corsToNode origin) k (g.corsToNode target))).map
            (fun uv => g.delta uv.1 uv.2)) := by
  obtain ⟨k, hk, _⟩ := distN_le (contains_eq_mem.mp hconn) (Nat.le_refl _)
  refine ⟨k, hk, ?_⟩
  have hbeq : (g.corsToNode origin == g.corsToNode target) = false := by
    simpa using hne
  simp [Grid.getPath, hbeq, hk]

theorem zip_tail_length {α : Type} (a : α) (l : List α) : ((a :: l).zip l).length = l.length := by
  rw [List.length_zip]
  simp only [List.length_cons]
  omega

theorem pathCost_self {g : Grid} {origin target : Cell}
    (h : g.corsToNode origin = g.corsToNode target) : g.pathCost origin target = some 0 := by
  simp [Grid.pathCost, getPath_self h]

theorem pathBack_length_eq {g : Grid} {o t k : Nat} (hsrc : o < g.N)
    (hdist : g.distN o t = some k) : (g.pathBack o k t).length = k := by
  obtain ⟨hmem, hmin, hkN⟩ := distN_mem hdist
  obtain ⟨_, hgl, hlen, _, hpos⟩ := pathBack_spec hsrc k t hmem
  by_contra hne
  have hlt : (g.pathBack o k t).length < k := by omega
  have hlast := hpos (g.pathBack o k t).length (by omega)
  rw [getD_length_eq_getLastD, hgl] at hlast
  exact hmin _ hlt hlast

theorem pathCost_eq_distN {g : Grid} {origin target : Cell}
    (hsrc : g.corsToNode origin < g.N) (hconn : g.Conn origin target) :
    g.pathCost origin target = g.distN (g.corsToNode origin) (g.corsToNode target) := by
  by_cases he : g.corsToNode origin = g.corsToNode target
  · rw [pathCost_self he, he, distN_self]
  · obtain ⟨k, hk, hgp⟩ := getPath_of_ne he hconn
    simp only [Grid.pathCost, hgp, Option.map_some', hk]
    rw [List.length_map, zip_tail_length, pathBack_length_eq hsrc hk]

theorem getPath_lengths {g : Grid} {origin target : Cell} {cords : List Cell} {acts : List Nat}
    (h : g.getPath origin target = some (cords, acts)) : cords.length = acts.length := by
  simp only [Grid.getPath] at h
  split at h
  · obtain ⟨h1, h2⟩ := Prod.mk.injEq .. ▸ Option.some.inj h
    rw [← h1, ← h2]
    rfl
  · split at h
    · exact absurd h (by simp)
    · obtain ⟨h1, h2⟩ := Prod.mk.injEq .. ▸ Option.some.inj h
      rw [← h1, ← h2, List.length_map, List.length_map, List.tail_cons, zip_tail_length]

theorem nodeToCors_valid {g : Grid} {n : Nat} (hn : n < g.N) (hc : 0 < g.cols) :
    g.ValidCell (g.nodeToCors n) := by
  constructor
  · exact (Nat.div_lt_iff_lt_mul hc).mpr hn
  · exact Nat.mod_lt _ hc

theorem conn_self {g : Grid} {origin target : Cell} (hsrc : g.corsToNode origin < g.N)
    (h : g.corsToNode origin = g.corsToNode target) : g.Conn origin target := by
  unfold Grid.Conn
  rw [← h]
  exact contains_eq_mem.mpr (reach_mono hsrc (Nat.zero_le _) (mem_reach_zero.mpr rfl))

/-- The key prefix property of returned paths: the `i`-th entry of the path
(origin prepended at index 0) is connected to the origin and its path cost
from the origin is at most `i`. -/
theorem getPath_initSegment_cost {g : Grid} {origin target : Cell} {cords : List Cell}
    {acts : List Nat} (hsrc : g.corsToNode origin < g.N) (hconn : g.Conn origin target)
    (h : g.getPath origin target = some (cords, acts)) :
    ∀ i, i < cords.length + 1 →
      g.Conn origin ((origin :: cords).getD i (0, 0)) ∧
      ∃ c, g.pathCost origin ((origin :: cords).getD i (0, 0)) = some c ∧ c ≤ i := by
  intro i hi
  by_cases he : g.corsToNode origin = g.corsToNode target
  · rw [getPath_self he] at h
    obtain ⟨h1, _⟩ := Prod.mk.injEq .. ▸ Option.some.inj h
    rw [← h1] at hi
    simp only [List.length_nil] at hi
    have hiz : i = 0 := by omega
    subst hiz
    exact ⟨conn_self hsrc rfl, 0, pathCost_self rfl, Nat.le_refl _⟩
  · obtain ⟨k, hk, hgp⟩ := getPath_of_ne he hconn
    rw [h] at hgp
    obtain ⟨hcords, _⟩ := Prod.mk.injEq .. ▸ (Option.some.inj hgp).symm
    obtain ⟨hmem, _, hkN⟩ := distN_mem hk
    obtain ⟨_, _, hlen, _, hpos⟩ := pathBack_spec hsrc k _ hmem
    cases i with
    | zero => exact ⟨conn_self hsrc rfl, 0, pathCost_self rfl, Nat.le_refl _⟩
    | succ j =>
      set pb := g.pathBack (g.corsToNode origin) k (g.corsToNode target) with hpb
      have hlenc : cords.length = pb.length := by rw [← hcords, List.length_map]
      have hcell : (origin :: cords).getD (j + 1) (0, 0) = g.nodeToCors (pb.getD j 0) := by
        rw [List.getD_cons_succ, ← hcords]
        have : g.nodeToCors 0 = ((0 : Nat), (0 : Nat)) := by
          simp [Grid.nodeToCors, Nat.zero_div, Nat.zero_mod]
        rw [← this, getD_map]
      have hnode : pb.getD j 0 ∈ g.reach (g.corsToNode origin) (j + 1) := by
        have := hpos (j + 1) (by omega)
        rwa [List.getD_cons_succ] at this
      have hjN : j + 1 ≤ g.N := by omega
      have hconn2 : g.Conn origin ((origin :: cords).getD (j + 1) (0, 0)) := by
        unfold Grid.Conn
        rw [hcell, corsToNode_nodeToCors]
        exact contains_eq_mem.mpr (reach_mono hsrc hjN hnode)
      obtain ⟨c, hc1, hc2⟩ := distN_le hnode hjN
      refine ⟨hconn2, c, ?_, hc2⟩
      have hconn3 : g.Conn origin (g.nodeToCors (pb.getD j 0)) := by
        rw [← hcell]; exact hconn2
      rw [hcell, pathCost_eq_distN hsrc hconn3, corsToNode_nodeToCors]
      exact hc1

/-- The last cell of a returned path is the target. -/
theorem getPath_last {g : Grid} {origin target : Cell} {cords : List Cell} {acts : List Nat}
    (hvo : origin.2 < g.cols) (hvt : target.2 < g.cols)
    (hsrc : g.corsToNode origin < g.N) (hconn : g.Conn origin target)
    (h : g.getPath origin target = some (cords, acts)) :
    cords.getLastD origin = target := by
  by_cases he : g.corsToNode origin = g.corsToNode target
  · rw [getPath_self he] at h
    obtain ⟨h1, _⟩ := Prod.mk.injEq .. ▸ Option.some.inj h
    rw [← h1]
    exact corsToNode_inj hvo hvt he
  · obtain ⟨k, hk, hgp⟩ := getPath_of_ne he hconn
    rw [h] at hgp
    obtain ⟨hcords, _⟩ := Prod.mk.injEq .. ▸ (Option.some.inj hgp).symm
    obtain ⟨hmem, _, _⟩ := distN_mem hk
    obtain ⟨_, hgl, _, _, _⟩ := pathBack_spec hsrc k _ hmem
    have h1 := getLastD_map g.nodeToCors
      (g.pathBack (g.corsToNode origin) k (g.corsToNode target)) (g.corsToNode origin)
    rw [nodeToCors_corsToNode hvo, hcords] at h1
    rw [h1, hgl]
    exact nodeToCors_corsToNode hvt

/-- A single adjacency step of the node graph moves the coordinates exactly
as the decoded action does, on a no-wrap grid with at least two columns. -/
theorem adj_step {g : Grid} (hw : g.NoWrap) (hcols : 2 ≤ g.cols) {i j : Nat}
    (hi : i < g.N) (hj : j < g.N) (hadj : g.adj i j = true) :
    g.nodeToCors j = applyAct (g.nodeToCors i) (g.delta i j) := by
  have hc : 0 < g.cols := by omega
  simp only [Grid.adj, Bool.or_eq_true, Bool.and_eq_true, beq_iff_eq] at hadj
  rcases hadj with ((⟨hjeq, hs⟩ | ⟨hieq, hs⟩) | ⟨hjeq, he⟩) | ⟨hieq, he⟩
  · -- south step: j = i + cols
    subst hjeq
    have hd : ((i + g.cols : Nat) : Int) - (i : Int) = (g.cols : Int) := by push_cast; ring
    have h1 : ¬(((i + g.cols : Nat) : Int) - (i : Int) = -1) := by rw [hd]; omega
    have h2 : ¬(((i + g.cols : Nat) : Int) - (i : Int) = 1) := by rw [hd]; omega
    have h3 : ¬(((i + g.cols : Nat) : Int) - (i : Int) = -(g.cols : Int)) := by rw [hd]; omega
    have hdelta : g.delta i (i + g.cols) = 0 := by
      simp only [Grid.delta, if_neg h1, if_neg h2, if_neg h3]
    rw [hdelta]
    show g.nodeToCors (i + g.cols) = ((g.nodeToCors i).1 + 1, (g.nodeToCors i).2)
    simp only [Grid.nodeToCors]
    rw [Nat.add_div_right _ hc, Nat.add_mod_right]
  · -- north step: i = j + cols
    subst hieq
    have hd : ((j : Nat) : Int) - ((j + g.cols : Nat) : Int) = -(g.cols : Int) := by
      push_cast; ring
    have h1 : ¬(((j : Nat) : Int) - ((j + g.cols : Nat) : Int) = -1) := by rw [hd]; omega
    have h2 : ¬(((j : Nat) : Int) - ((j + g.cols : Nat) : Int) = 1) := by rw [hd]; omega
    have hdelta : g.delta (j + g.cols) j = 1 := by
      simp only [Grid.delta, if_neg h1, if_neg h2, if_pos hd]
    rw [hdelta]
    show g.nodeToCors j = ((g.nodeToCors (j + g.cols)).1 - 1, (g.nodeToCors (j + g.cols)).2)
    simp only [Grid.nodeToCors]
    rw [Nat.add_div_right _ hc, Nat.add_mod_right]
    simp
  · -- east step: j = i + 1
    subst hjeq
    have hrow : i / g.cols < g.rows := by
      rw [Nat.div_lt_iff_lt_mul hc]
      exact hi
    have hne : i % g.cols ≠ g.cols - 1 := by
      intro hmod
      have := hw (i / g.cols) hrow
      rw [← hmod] at this
      rw [this] at he
      cases he
    have hr1 : i % g.cols + 1 < g.cols := by
      have := Nat.mod_lt i hc
      omega
    have hqr := Nat.div_add_mod i g.cols
    have hrw : i + 1 = g.cols * (i / g.cols) + (i % g.cols + 1) := by omega
    have hdiv : (i + 1) / g.cols = i / g.cols := by
      rw [hrw, Nat.mul_add_div hc, Nat.div_eq_of_lt hr1, Nat.add_zero]
    have hmod : (i + 1) % g.cols = i % g.cols + 1 := by
      rw [hrw, Nat.mul_add_mod, Nat.mod_eq_of_lt hr1]
    have hd : ((i + 1 : Nat) : Int) - (i : Int) = 1 := by push_cast; ring
    have h1 : ¬(((i + 1 : Nat) : Int) - (i : Int) = -1) := by rw [hd]; omega
    have hdelta : g.delta i (i + 1) = 2 := by
      simp only [Grid.delta, if_neg h1, if_pos hd]
    rw [hdelta]
    show g.nodeToCors (i + 1) = ((g.nodeToCors i).1, (g.nodeToCors i).2 + 1)
    simp only [Grid.nodeToCors]
    rw [hdiv, hmod]
  · -- west step: i = j + 1
    subst hieq
    have hrow : j / g.cols < g.rows := by
      rw [Nat.div_lt_iff_lt_mul hc]
      exact hj
    have hne : j % g.cols ≠ g.cols - 1 := by
      intro hmod
      have := hw (j / g.cols) hrow
      rw [← hmod] at this
      rw [this] at he
      cases he
    have hr1 : j % g.cols + 1 < g.cols := by
      have := Nat.mod_lt j hc
      omega
    have hqr := Nat.div_add_mod j g.cols
    have hrw : j + 1 = g.cols * (j / g.cols) + (j % g.cols + 1) := by omega
    have hdiv : (j + 1) / g.cols = j / g.cols := by
      rw [hrw, Nat.mul_add_div hc, Nat.div_eq_of_lt hr1, Nat.add_zero]
    have hmod : (j + 1) % g.cols = j % g.cols + 1 := by
      rw [hrw, Nat.mul_add_mod, Nat.mod_eq_of_lt hr1]
    have hd : ((j : Nat) : Int) - ((j + 1 : Nat) : Int) = -1 := by push_cast; ring
    have hdelta : g.delta (j + 1) j = 3 := by
      simp only [Grid.delta, if_pos hd]
    rw [hdelta]
    show g.nodeToCors j = ((g.nodeToCors (j + 1)).1, (g.nodeToCors (j + 1)).2 - 1)
    simp only [Grid.nodeToCors]
    rw [hdiv, hmod]
    simp

theorem trace_of_chain {g : Grid} (hw : g.NoWrap) (hcols : 2 ≤ g.cols) :
    ∀ (l : List Nat) (a : Nat), a < g.N → (∀ x ∈ l, x < g.N) →
      List.Chain (fun u v => g.adj u v = true) a l →
      trace (g.nodeToCors a) (((a :: l).zip l).map (fun uv => g.delta uv.1 uv.2)) =
        l.map g.nodeToCors := by
  intro l
  induction l with
  | nil => intro a _ _ _; rfl
  | cons b l ih =>
    intro a ha hbound hch
    cases hch with
    | cons hab hch =>
      have hb : b < g.N := hbound b (by simp)
      have hstep : g.nodeToCors b = applyAct (g.nodeToCors a) (g.delta a b) :=
        adj_step hw hcols ha hb hab
      have hz : ((a :: b :: l).zip (b :: l)) = (a, b) :: ((b :: l).zip l) := rfl
      rw [hz, List.map_cons]
      simp only [trace]
      rw [← hstep]
      exact congrArg (List.cons (g.nodeToCors b))
        (ih b hb (fun x hx => hbound x (by simp [hx])) hch)

/-- Applying the decoded actions of a returned path from the origin visits
exactly the returned cells. -/
theorem getPath_trace {g : Grid} (hw : g.NoWrap) (hcols : 2 ≤ g.cols)
    {origin target : Cell} {cords : List Cell} {acts : List Nat}
    (hsrc : g.corsToNode origin < g.N) (hvo : origin.2 < g.cols)
    (hconn : g.Conn origin target)
    (h : g.getPath origin target = some (cords, acts)) :
    trace origin acts = cords := by
  by_cases he : g.corsToNode origin = g.corsToNode target
  · rw [getPath_self he] at h
    obtain ⟨h1, h2⟩ := Prod.mk.injEq .. ▸ Option.some.inj h
    rw [← h1, ← h2]
    rfl
  · obtain ⟨k, hk, hgp⟩ := getPath_of_ne he hconn
    rw [h] at hgp
    obtain ⟨hcords, hacts⟩ := Prod.mk.injEq .. ▸ (Option.some.inj hgp).symm
    obtain ⟨hmem, _, _⟩ := distN_mem hk
    obtain ⟨hch, _, _, hbound, _⟩ := pathBack_spec hsrc k _ hmem
    have ht := trace_of_chain hw hcols
      (g.pathBack (g.corsToNode origin) k (g.corsToNode target)) (g.corsToNode origin)
      hsrc hbound hch
    rw [nodeToCors_corsToNode hvo] at ht
    rw [← hcords, ← hacts]
    exact ht

/-! ### Lemmas: generic list machinery and connectivity bridges -/

theorem foldlM_eq_foldl {α σ : Type} (step : σ → α → Option σ) (pureStep : σ → α → σ) :
    ∀ (l : List α), (∀ acc, ∀ x ∈ l, step acc x = some (pureStep acc x)) →
      ∀ init, l.foldlM step init = some (l.foldl pureStep init) := by
  intro l
  induction l with
  | nil => intro _ init; rfl
  | cons x xs ih =>
    intro h init
    have hx := h init x (by simp)
    calc (x :: xs).foldlM step init = xs.foldlM step (pureStep init x) := by
          simp [List.foldlM_cons, hx]
      _ = some (xs.foldl pureStep (pureStep init x)) :=
          ih (fun acc y hy => h acc y (by simp [hy])) _
      _ = some ((x :: xs).foldl pureStep init) := by simp

theorem mapM_loop_eq {α β : Type} (f : α → Option β) (pf : α → β) :
    ∀ (l : List α), (∀ x ∈ l, f x = some (pf x)) → ∀ acc,
      List.mapM.loop f l acc = some (acc.reverse ++ l.map pf) := by
  intro l
  induction l with
  | nil => intro _ acc; simp [List.mapM.loop]
  | cons x xs ih =>
    intro h acc
    have hx := h x (by simp)
    have hxs := ih (fun y hy => h y (by simp [hy])) (pf x :: acc)
    simp [List.mapM.loop, hx, hxs]

theorem mapM_eq_map {α β : Type} (f : α → Option β) (pf : α → β)
    (l : List α) (h : ∀ x ∈ l, f x = some (pf x)) : l.mapM f = some (l.map pf) := by
  have := mapM_loop_eq f pf l h []
  simpa [List.mapM] using this

theorem foldl_minBy_mem {α β : Type} [LinearOrder β] (key : α → β) :
    ∀ (xs : List α) (x : α),
      xs.foldl (fun b y => if key y < key b then y else b) x ∈ x :: xs := by
  intro xs
  induction xs with
  | nil => intro x; simp
  | cons z zs ih =>
    intro x
    rw [List.foldl_cons]
    by_cases h : key z < key x
    · rw [if_pos h]
      have := ih z
      rcases List.mem_cons.mp this with h2 | h2
      · simp [h2]
      · simp [List.mem_cons.mpr (Or.inr h2)]
    · rw [if_neg h]
      have := ih x
      rcases List.mem_cons.mp this with h2 | h2
      · simp [h2]
      · simp [List.mem_cons.mpr (Or.inr h2)]

theorem foldl_minBy_le {α β : Type} [LinearOrder β] (key : α → β) :
    ∀ (xs : List α) (x : α) (y : α), y ∈ x :: xs →
      key (xs.foldl (fun b y => if key y < key b then y else b) x) ≤ key y := by
  intro xs
  induction xs with
  | nil =>
    intro x y hy
    have : y = x := by simpa using hy
    subst this
    exact le_refl _
  | cons z zs ih =>
    intro x y hy
    rw [List.foldl_cons]
    have hmin : key (if key z < key x then z else x) ≤ key x ∧
        key (if key z < key x then z else x) ≤ key z := by
      by_cases h : key z < key x
      · rw [if_pos h]; exact ⟨le_of_lt h, le_refl _⟩
      · rw [if_neg h]; exact ⟨le_refl _, le_of_not_lt h⟩
    have hstep := ih (if key z < key x then z else x)
    have hself := hstep (if key z < key x then z else x) (by simp)
    rcases List.mem_cons.mp hy with rfl | hy2
    · exact le_trans hself hmin.1
    · rcases List.mem_cons.mp hy2 with rfl | hy3
      · exact le_trans hself hmin.2
      · exact hstep y (List.mem_cons.mpr (Or.inr hy3))

theorem minByKey_mem {α β : Type} [LinearOrder β] {key : α → β} {l : List α} {m : α}
    (h : minByKey key l = some m) : m ∈ l := by
  cases l with
  | nil => simp [minByKey] at h
  | cons x xs =>
    simp only [minByKey] at h
    exact Option.some.inj h ▸ foldl_minBy_mem key xs x

theorem minByKey_le {α β : Type} [LinearOrder β] {key : α → β} {l : List α} {m : α}
    (h : minByKey key l = some m) : ∀ y ∈ l, key m ≤ key y := by
  cases l with
  | nil => simp [minByKey] at h
  | cons x xs =>
    simp only [minByKey] at h
    intro y hy
    exact Option.some.inj h ▸ foldl_minBy_le key xs x y hy

theorem minByKey_isSome {α β : Type} [LinearOrder β] (key : α → β) (x : α) (xs : List α) :
    ∃ m, minByKey key (x :: xs) = some m := ⟨_, rfl⟩

theorem foldl_minBy_map_pair {α β : Type} (k : α → Int) (f : α → β) :
    ∀ (xs : List α) (x : α),
      (xs.map (fun y => (k y, f y))).foldl
          (fun b y => if y.1 < b.1 then y else b) (k x, f x) =
        (k (xs.foldl (fun b y => if k y < k b then y else b) x),
          f (xs.foldl (fun b y => if k y < k b then y else b) x)) := by
  intro xs
  induction xs with
  | nil => intro x; rfl
  | cons z zs ih =>
    intro x
    simp only [List.map_cons, List.foldl_cons]
    by_cases h : k z < k x
    · rw [if_pos h, if_pos h]
      exact ih z
    · rw [if_neg h, if_neg h]
      exact ih x

theorem minByKey_fst_map_pair {α β : Type} (k : α → Int) (f : α → β) (l : List α) :
    minByKey (fun t : Int × β => t.1) (l.map (fun y => (k y, f y))) =
      (minByKey k l).map (fun y => (k y, f y)) := by
  cases l with
  | nil => rfl
  | cons x xs =>
    simp only [List.map_cons, minByKey, Option.map_some']
    rw [foldl_minBy_map_pair]

theorem pathCost_eq_costD {g : Grid} {a b : Cell} (hsrc : g.corsToNode a < g.N)
    (hconn : g.Conn a b) : g.pathCost a b = some (g.costD a b) := by
  obtain ⟨k, hk, _⟩ := distN_le (contains_eq_mem.mp hconn) (Nat.le_refl g.N)
  have h2 := pathCost_eq_distN hsrc hconn
  rw [hk] at h2
  rw [Grid.costD, h2]
  rfl

theorem connected_conn {g : Grid} (hcon : g.Connected) {a b : Cell}
    (ha : g.ValidCell a) (hb : g.ValidCell b) : g.Conn a b := by
  have := hcon a.1 ha.1 a.2 ha.2 b.1 hb.1 b.2 hb.2
  simpa using this

theorem mem_cellsRowMajor {g : Grid} {c : Cell} : c ∈ cellsRowMajor g ↔ g.ValidCell c := by
  constructor
  · intro h
    simp only [cellsRowMajor, List.mem_flatMap, List.mem_map, List.mem_range] at h
    obtain ⟨r, hr, c2, hc2, hrc⟩ := h
    rw [← hrc]
    exact ⟨hr, hc2⟩
  · intro h
    simp only [cellsRowMajor, List.mem_flatMap, List.mem_map, List.mem_range]
    exact ⟨c.1, h.1, c.2, h.2, rfl⟩

theorem pyIndex_toNat {α : Type} (l : List α) (i : Int) (h0 : 0 ≤ i)
    (hlt : i.toNat < l.length) (d : α) : pyIndex l i = some (l.getD i.toNat d) := by
  unfold pyIndex
  rw [if_pos h0, List.get?_eq_getElem?, List.getElem?_eq_getElem hlt,
    List.getD_eq_getElem?_getD, List.getElem?_eq_getElem hlt]
  rfl

theorem getPath_exists {g : Grid} {origin target : Cell}
    (hconn : g.Conn origin target) :
    ∃ cords acts, g.getPath origin target = some (cords, acts) := by
  by_cases he : g.corsToNode origin = g.corsToNode target
  · exact ⟨[], [], getPath_self he⟩
  · obtain ⟨k, _, hg⟩ := getPath_of_ne he hconn
    exact ⟨_, _, hg⟩

/-! ### Claim theorems -/

theorem h2_clamp_spec (g : Grid) (s : EnvState) (fromI pI : Nat)
    (hcon : g.Connected) (hloc : g.ValidCell (s.loc fromI))
    (hdest : g.ValidCell (s.pDest pI)) :
    ∃ cords acts, g.getPath (s.loc fromI) (s.pDest pI) = some (cords, acts) ∧
      cords.length = acts.length ∧
      findTransferPointH2 g s fromI pI =
        some ((s.loc fromI :: cords).getD
          (min (s.fuel fromI - 1).toNat acts.length) (s.loc fromI)) ∧
      (s.fuel fromI - 1 ≤ 0 → findTransferPointH2 g s fromI pI = some (s.loc fromI)) ∧
      ((acts.length : Int) ≤ s.fuel fromI - 1 →
        findTransferPointH2 g s fromI pI = some (s.pDest pI)) := by
  have hconn : g.Conn (s.loc fromI) (s.pDest pI) := connected_conn hcon hloc hdest
  have hsrc : g.corsToNode (s.loc fromI) < g.N := validCell_node_lt hloc
  obtain ⟨cords, acts, hgp⟩ := getPath_exists hconn
  have hlen : cords.length = acts.length := getPath_lengths hgp
  have hsp : (s.loc fromI :: cords).length = acts.length + 1 := by
    simp [List.length_cons, hlen]
  have hidx : (max 0 (min (s.fuel fromI - 1)
      (((s.loc fromI :: cords).length : Int) - 1))).toNat =
      min (s.fuel fromI - 1).toNat acts.length := by
    rw [hsp]
    omega
  have hnn : (0 : Int) ≤ max 0 (min (s.fuel fromI - 1)
      (((s.loc fromI :: cords).length : Int) - 1)) := by omega
  have hlt : (max 0 (min (s.fuel fromI - 1)
      (((s.loc fromI :: cords).length : Int) - 1))).toNat <
      (s.loc fromI :: cords).length := by
    rw [hidx, hsp]
    omega
  have hmain : findTransferPointH2 g s fromI pI =
      some ((s.loc fromI :: cords).getD
        (min (s.fuel fromI - 1).toNat acts.length) (s.loc fromI)) := by
    simp only [findTransferPointH2, hgp, Option.bind_eq_bind, Option.some_bind]
    rw [pyIndex_toNat _ _ hnn hlt (s.loc fromI), hidx]
  refine ⟨cords, acts, hgp, hlen, hmain, ?_, ?_⟩
  · intro hf
    rw [hmain]
    have h0 : min (s.fuel fromI - 1).toNat acts.length = 0 := by omega
    rw [h0]
    rfl
  · intro hf
    rw [hmain]
    have hL : min (s.fuel fromI - 1).toNat acts.length = acts.length := by omega
    rw [hL, ← hlen, getD_length_eq_getLastD]
    rw [getPath_last hloc.2 hdest.2 hsrc hconn hgp]

/-- C4: `find_transfer_point_h2` returns the cell at index
`clamp(sender_fuel - 1, 0, L)` of the sender's shortest path to the
passenger's destination (the sender's location prepended as index 0, `L` the
length of the action sequence); in particular the sender's location when
`sender_fuel - 1 ≤ 0` and the destination itself when `sender_fuel - 1 ≥ L`. -/
theorem C4_h2_clamps_senders_path (g : Grid) (s : EnvState) (fromI pI : Nat)
    (hcon : g.Connected) (hloc : g.ValidCell (s.loc fromI))
    (hdest : g.ValidCell (s.pDest pI)) :
    ∃ cords acts, g.getPath (s.loc fromI) (s.pDest pI) = some (cords, acts) ∧
      cords.length = acts.length ∧
      findTransferPointH2 g s fromI pI =
        some ((s.loc fromI :: cords).getD
          (min (s.fuel fromI - 1).toNat acts.length) (s.loc fromI)) ∧
      (s.fuel fromI - 1 ≤ 0 → findTransferPointH2 g s fromI pI = some (s.loc fromI)) ∧
      ((acts.length : Int) ≤ s.fuel fromI - 1 →
        findTransferPointH2 g s fromI pI = some (s.pDest pI)) :=
  h2_clamp_spec g s fromI pI hcon hloc hdest

/-- C4 witness: a concrete run on the four-cell line grid with fuel 3. -/
theorem C4_witness :
    ∃ cords acts, lineG.getPath (stateC.loc 0) (stateC.pDest 0) = some (cords, acts) ∧
      cords.length = acts.length ∧
      findTransferPointH2 lineG stateC 0 0 =
        some ((stateC.loc 0 :: cords).getD
          (min (stateC.fuel 0 - 1).toNat acts.length) (stateC.loc 0)) ∧
      (stateC.fuel 0 - 1 ≤ 0 → findTransferPointH2 lineG stateC 0 0 = some (stateC.loc 0)) ∧
      ((acts.length : Int) ≤ stateC.fuel 0 - 1 →
        findTransferPointH2 lineG stateC 0 0 = some (stateC.pDest 0)) :=
  C4_h2_clamps_senders_path lineG stateC 0 0 (by decide) (by decide) (by decide)

/-! ### Characterizations of the accumulator loops -/

theorem foldl_skipmin_go {α : Type} (key : α → Int) (keep : α → Prop) [DecidablePred keep] :
    ∀ (l : List α) (m : α),
      l.foldl (fun acc x => if keep x then
          (if ltInf (key x) acc.2 then (some x, some (key x)) else acc) else acc)
        (some m, some (key m)) =
      (some ((l.filter (fun x => decide (keep x))).foldl
          (fun b y => if key y < key b then y else b) m),
        some (key ((l.filter (fun x => decide (keep x))).foldl
          (fun b y => if key y < key b then y else b) m))) := by
  intro l
  induction l with
  | nil => intro m; rfl
  | cons x xs ih =>
    intro m
    rw [List.foldl_cons]
    by_cases hk : keep x
    · rw [if_pos hk, List.filter_cons_of_pos (by simpa using hk), List.foldl_cons]
      by_cases hlt : key x < key m
      · have hb : ltInf (key x) ((some m, some (key m)) : Option α × Option Int).2 = true := by
          simp [ltInf, hlt]
        rw [if_pos hb, if_pos hlt]
        exact ih x
      · have hb : ltInf (key x) ((some m, some (key m)) : Option α × Option Int).2 = false := by
          simp [ltInf, hlt]
        rw [if_neg (by simp [hb]), if_neg hlt]
        exact ih m
    · rw [if_neg hk, List.filter_cons_of_neg (by simpa using hk)]
      exact ih m

theorem foldl_skipmin_none {α : Type} (key : α → Int) (keep : α → Prop) [DecidablePred keep] :
    ∀ (l : List α),
      l.foldl (fun acc x => if keep x then
          (if ltInf (key x) acc.2 then (some x, some (key x)) else acc) else acc)
        (none, none) =
      (match minByKey key (l.filter (fun x => decide (keep x))) with
        | none => ((none : Option α), (none : Option Int))
        | some m => (some m, some (key m))) := by
  intro l
  induction l with
  | nil => rfl
  | cons x xs ih =>
    rw [List.foldl_cons]
    by_cases hk : keep x
    · have hb : ltInf (key x) ((none, none) : Option α × Option Int).2 = true := rfl
      rw [if_pos hk, if_pos hb, List.filter_cons_of_pos (by simpa using hk)]
      rw [foldl_skipmin_go key keep xs x]
      simp [minByKey]
    · rw [if_neg hk, List.filter_cons_of_neg (by simpa using hk)]
      exact ih

theorem foldl_condmin_go {γ : Type} (d : Nat → Nat) (cond : Nat → Bool) (f : Nat → γ) :
    ∀ (l : List Nat) (m : Nat),
      l.foldl (fun acc i => if ltInfN (d i) acc.1 && cond i then (some (d i), f i) else acc)
        (some (d m), f m) =
      (some (d ((l.filter cond).foldl (fun b y => if d y < d b then y else b) m)),
        f ((l.filter cond).foldl (fun b y => if d y < d b then y else b) m)) := by
  intro l
  induction l with
  | nil => intro m; rfl
  | cons x xs ih =>
    intro m
    rw [List.foldl_cons]
    by_cases hc : cond x = true
    · rw [List.filter_cons_of_pos hc, List.foldl_cons]
      by_cases hd : d x < d m
      · have hb : (ltInfN (d x) ((some (d m), f m) : Option Nat × γ).1 && cond x) = true := by
          simp [ltInfN, hd, hc]
        rw [if_pos hb, if_pos hd]
        exact ih x
      · have hb : (ltInfN (d x) ((some (d m), f m) : Option Nat × γ).1 && cond x) = false := by
          simp [ltInfN, hd]
        rw [if_neg (by simp [hb]), if_neg hd]
        exact ih m
    · have hcf : cond x = false := Bool.eq_false_iff.mpr hc
      have hb : (ltInfN (d x) ((some (d m), f m) : Option Nat × γ).1 && cond x) = false := by
        simp [hcf]
      rw [if_neg (by simp [hb]), List.filter_cons_of_neg hc]
      exact ih m

theorem foldl_condmin_none {γ : Type} (d : Nat → Nat) (cond : Nat → Bool) (f : Nat → γ) (z : γ) :
    ∀ (l : List Nat),
      l.foldl (fun acc i => if ltInfN (d i) acc.1 && cond i then (some (d i), f i) else acc)
        (none, z) =
      (match minByKey d (l.filter cond) with
        | none => ((none : Option Nat), z)
        | some m => (some (d m), f m)) := by
  intro l
  induction l with
  | nil => rfl
  | cons x xs ih =>
    rw [List.foldl_cons]
    by_cases hc : cond x = true
    · have hb : (ltInfN (d x) ((none, z) : Option Nat × γ).1 && cond x) = true := by
        simp [ltInfN, hc]
      rw [if_pos hb, List.filter_cons_of_pos hc]
      rw [foldl_condmin_go d cond f xs x]
      simp [minByKey]
    · have hcf : cond x = false := Bool.eq_false_iff.mpr hc
      have hb : (ltInfN (d x) ((none, z) : Option Nat × γ).1 && cond x) = false := by
        simp [hcf]
      rw [if_neg (by simp [hb]), List.filter_cons_of_neg hc]
      exact ih

theorem closestStep_eq {g : Grid} {s : EnvState} {dest : Cell} {i : Nat}
    (hI : g.corsToNode (s.loc i) < g.N) (hconn : g.Conn (s.loc i) dest)
    (acc : Option Nat × Int) :
    closestStep g s dest acc i = some (closestStepP g s dest acc i) := by
  unfold closestStep closestStepP
  rw [pathCost_eq_costD hI hconn]
  simp only [Option.bind_eq_bind, Option.some_bind]
  split <;> rfl

/-- C7: `find_closest_taxi` returns the first taxi of minimal distance among
the taxis whose distance to the point is strictly below their fuel, and the
failure sentinel `-1` when no taxi qualifies. -/
theorem C7_find_closest_taxi (g : Grid) (s : EnvState) (dest : Cell)
    (hcon : g.Connected) (hdest : g.ValidCell dest)
    (hlocs : ∀ i < s.numTaxis, g.ValidCell (s.loc i)) :
    findClosestTaxi g s dest = some (specClosestTaxi g s dest) := by
  unfold findClosestTaxi specClosestTaxi
  have hsteps : ∀ (acc : Option Nat × Int), ∀ i ∈ List.range s.numTaxis,
      closestStep g s dest acc i = some (closestStepP g s dest acc i) := by
    intro acc i hi
    have hv := hlocs i (List.mem_range.mp hi)
    exact closestStep_eq (validCell_node_lt hv) (connected_conn hcon hv hdest) acc
  rw [foldlM_eq_foldl _ _ _ hsteps (none, -1)]
  have hP : closestStepP g s dest = fun (acc : Option Nat × Int) i =>
      if ltInfN (g.costD (s.loc i) dest) acc.1 &&
          decide ((g.costD (s.loc i) dest : Int) < s.fuel i)
        then (some (g.costD (s.loc i) dest), (i : Int)) else acc := rfl
  rw [hP, foldl_condmin_none (fun i => g.costD (s.loc i) dest)
    (fun i => decide ((g.costD (s.loc i) dest : Int) < s.fuel i)) (fun i => (i : Int)) (-1)]
  cases hmin : minByKey (fun i => g.costD (s.loc i) dest)
      ((List.range s.numTaxis).filter
        (fun i => decide ((g.costD (s.loc i) dest : Int) < s.fuel i))) with
  | none => simp
  | some m => simp

/-- C7 witness: two taxis on the line grid, the far one with enough fuel. -/
theorem C7_witness :
    findClosestTaxi lineG stateC (0, 3) = some (specClosestTaxi lineG stateC (0, 3)) :=
  C7_find_closest_taxi lineG stateC (0, 3) (by decide) (by decide) (by decide)

theorem noCollabStep_eq {g : Grid} {s : EnvState} {pLoc : Cell} {c0 i : Nat}
    (hI : g.corsToNode (s.loc i) < g.N) (hconn : g.Conn (s.loc i) pLoc)
    (acc : List Nat × Int) :
    noCollabStep g s pLoc c0 acc i = some (noCollabStepP g s pLoc c0 acc i) := by
  unfold noCollabStep noCollabStepP
  rw [pathCost_eq_costD hI hconn]
  rfl

theorem foldl_collab (g : Grid) (s : EnvState) (pLoc : Cell) (c0 : Nat) :
    ∀ (l : List Nat) (a0 : List Nat) (b0 : Int),
      l.foldl (noCollabStepP g s pLoc c0) (a0, b0) =
      (a0 ++ l.filter (fun i => decide ((g.costD (s.loc i) pLoc : Int) + (c0 : Int) < s.fuel i)),
        l.foldl (fun b i =>
          min b (max 0 ((g.costD (s.loc i) pLoc : Int) + (c0 : Int) - (s.fuel i - 1)))) b0) := by
  intro l
  induction l with
  | nil => intro a0 b0; simp
  | cons x xs ih =>
    intro a0 b0
    rw [List.foldl_cons, List.foldl_cons]
    by_cases hc : (g.costD (s.loc x) pLoc : Int) + (c0 : Int) < s.fuel x
    · have hstep : noCollabStepP g s pLoc c0 (a0, b0) x =
          (a0 ++ [x],
            min b0 (max 0 ((g.costD (s.loc x) pLoc : Int) + (c0 : Int) - (s.fuel x - 1)))) := by
        unfold noCollabStepP
        rw [if_pos hc]
      rw [hstep, ih, List.filter_cons_of_pos (by simpa using hc)]
      simp
    · have hstep : noCollabStepP g s pLoc c0 (a0, b0) x =
          (a0,
            min b0 (max 0 ((g.costD (s.loc x) pLoc : Int) + (c0 : Int) - (s.fuel x - 1)))) := by
        unfold noCollabStepP
        rw [if_neg hc]
      rw [hstep, ih, List.filter_cons_of_neg (by simpa using hc)]

/-- C6: `no_collaboration_case` returns exactly the taxis whose total cost is
strictly below their fuel, and the minimum over taxis of
`max(0, totalCost - (fuel - 1))` capped by the passenger's direct cost. -/
theorem C6_no_collaboration_case (g : Grid) (s : EnvState) (pI : Nat)
    (hcon : g.Connected) (hps : g.ValidCell (s.pStart pI)) (hpd : g.ValidCell (s.pDest pI))
    (hlocs : ∀ i < s.numTaxis, g.ValidCell (s.loc i)) :
    noCollaborationCase g s pI =
      some (specCapableTaxis g s pI, specMinDistFromDest g s pI) := by
  show (do
    let pathToDestinationCost ← g.pathCost (s.pStart pI) (s.pDest pI)
    List.foldlM (noCollabStep g s (s.pStart pI) pathToDestinationCost)
      ([], (pathToDestinationCost : Int)) (List.range s.numTaxis)) =
    some (specCapableTaxis g s pI, specMinDistFromDest g s pI)
  rw [pathCost_eq_costD (validCell_node_lt hps) (connected_conn hcon hps hpd)]
  simp only [Option.bind_eq_bind, Option.some_bind]
  have hsteps : ∀ (acc : List Nat × Int), ∀ i ∈ List.range s.numTaxis,
      noCollabStep g s (s.pStart pI) (g.costD (s.pStart pI) (s.pDest pI)) acc i =
        some (noCollabStepP g s (s.pStart pI) (g.costD (s.pStart pI) (s.pDest pI)) acc i) := by
    intro acc i hi
    have hv := hlocs i (List.mem_range.mp hi)
    exact noCollabStep_eq (validCell_node_lt hv) (connected_conn hcon hv hps) acc
  rw [foldlM_eq_foldl _ _ _ hsteps ([], (g.costD (s.pStart pI) (s.pDest pI) : Int))]
  rw [foldl_collab]
  unfold specCapableTaxis specMinDistFromDest taxiShortfallD totalPathCostD
  rw [List.nil_append, List.foldl_map]

/-- C6 witness: two taxis, the near one capable. -/
theorem C6_witness :
    noCollaborationCase lineG stateE 0 =
      some (specCapableTaxis lineG stateE 0, specMinDistFromDest lineG stateE 0) :=
  C6_no_collaboration_case lineG stateE 0 (by decide) (by decide) (by decide) (by decide)

theorem foldl_alloc_go (p : Nat) :
    ∀ (l : List AllocMessage), (∀ mm ∈ l, mm.passengerIndex = p) →
      ∀ (m : AllocMessage) (lp : Option Nat),
      l.foldl (fun (acc : Option Nat × Int × Option Nat) mm =>
          if ltInfN mm.pickupCost acc.1 then
            (some mm.pickupCost, (mm.taxiIndex : Int), some mm.passengerIndex)
          else (acc.1, acc.2.1, some mm.passengerIndex))
        (some m.pickupCost, (m.taxiIndex : Int), lp) =
      (some (l.foldl (fun b y => if y.pickupCost < b.pickupCost then y else b) m).pickupCost,
        ((l.foldl (fun b y => if y.pickupCost < b.pickupCost then y else b) m).taxiIndex : Int),
        if l.isEmpty then lp else some p) := by
  intro l
  induction l with
  | nil => intro _ m lp; rfl
  | cons x xs ih =>
    intro hp m lp
    rw [List.foldl_cons, List.foldl_cons]
    have hx : x.passengerIndex = p := hp x (by simp)
    have hxs : ∀ mm ∈ xs, mm.passengerIndex = p := fun mm hmm => hp mm (by simp [hmm])
    by_cases hd : x.pickupCost < m.pickupCost
    · have hb : ltInfN x.pickupCost
          ((some m.pickupCost, (m.taxiIndex : Int), lp) : Option Nat × Int × Option Nat).1 =
          true := by simp [ltInfN, hd]
      rw [if_pos hb, if_pos hd, ih hxs x (some x.passengerIndex)]
      by_cases he : xs.isEmpty <;> simp [he, hx]
    · have hb : ltInfN x.pickupCost
          ((some m.pickupCost, (m.taxiIndex : Int), lp) : Option Nat × Int × Option Nat).1 =
          false := by simp [ltInfN, hd]
      rw [if_neg (by simp [hb]), if_neg hd, ih hxs m (some x.passengerIndex)]
      by_cases he : xs.isEmpty <;> simp [he, hx]

/-- C9: `decide_assignments` appends the passenger to the own assignment list
exactly when the minimum bid over the received messages is first attained by
a message sent by this taxi, and always clears the communication channel. -/
theorem C9_decide_assignments (selfIndex p : Nat) (ts : TaxiState)
    (channel : List AllocMessage) (hp : ∀ m ∈ channel, m.passengerIndex = p) :
    decideAssignments selfIndex ts channel =
      (if winsAllocation selfIndex channel = true then
        { ts with assignedPassengers := ts.assignedPassengers ++ [p] } else ts, []) := by
  cases channel with
  | nil =>
    have hne : ¬((-1 : Int) = (selfIndex : Int)) := by omega
    simp [decideAssignments, winsAllocation, minByKey, hne]
  | cons m rest =>
    have hx : m.passengerIndex = p := hp m (by simp)
    have hrest : ∀ mm ∈ rest, mm.passengerIndex = p := fun mm hmm => hp mm (by simp [hmm])
    unfold decideAssignments
    rw [List.foldl_cons]
    have hb : ltInfN m.pickupCost ((none, -1, none) : Option Nat × Int × Option Nat).1 =
        true := rfl
    rw [if_pos hb, foldl_alloc_go p rest hrest m (some m.passengerIndex)]
    set best := rest.foldl (fun b y => if y.pickupCost < b.pickupCost then y else b) m with hbest
    have hwin : winsAllocation selfIndex (m :: rest) = (best.taxiIndex == selfIndex) := rfl
    have hlast : (if rest.isEmpty then some m.passengerIndex else some p) = some p := by
      by_cases he : rest.isEmpty <;> simp [he, hx]
    rw [hlast, hwin]
    by_cases hsel : best.taxiIndex = selfIndex
    · have h1 : ((best.taxiIndex : Int) = (selfIndex : Int)) := by exact_mod_cast hsel
      simp [h1, hsel]
    · have h1 : ¬((best.taxiIndex : Int) = (selfIndex : Int)) := by
        intro hq
        exact hsel (by exact_mod_cast hq)
      simp [h1, hsel]

/-- C9 witness: three bids for passenger 7, the minimum first attained by
taxi 0. -/
theorem C9_witness :
    decideAssignments 0 { actionsQueue := [], assignedPassengers := [] }
      [ { taxiIndex := 1, passengerIndex := 7, pickupCost := 3 },
        { taxiIndex := 0, passengerIndex := 7, pickupCost := 2 },
        { taxiIndex := 2, passengerIndex := 7, pickupCost := 2 } ] =
      (if winsAllocation 0
          [ { taxiIndex := 1, passengerIndex := 7, pickupCost := 3 },
            { taxiIndex := 0, passengerIndex := 7, pickupCost := 2 },
            { taxiIndex := 2, passengerIndex := 7, pickupCost := 2 } ] = true then
        { actionsQueue := [], assignedPassengers := [] ++ [7] }
        else { actionsQueue := [], assignedPassengers := [] }, []) :=
  C9_decide_assignments 0 7 { actionsQueue := [], assignedPassengers := [] } _ (by decide)

/-- C10: when the sender cannot afford any grid cell (every sender path cost
exceeds `sender_fuel - 1`), `find_optimal_transfer_point` returns the initial
empty value instead of a cell, with no exception. -/
theorem C10_no_affordable_cell (g : Grid) (s : EnvState) (fromI toI pI : Nat)
    (hall : ∀ tp ∈ cellsRowMajor g, ∃ c, g.pathCost (s.loc fromI) tp = some c ∧
      (c : Int) > s.fuel fromI - 1) :
    findOptimalTransferPoint g s fromI toI pI = some none := by
  unfold findOptimalTransferPoint optFold
  have hsteps : ∀ (acc : Option Cell × Option Int), ∀ tp ∈ cellsRowMajor g,
      optStep g s fromI toI (s.pDest pI) acc tp = some acc := by
    intro acc tp htp
    obtain ⟨c, hc1, hc2⟩ := hall tp htp
    unfold optStep
    rw [hc1]
    simp only [Option.bind_eq_bind, Option.some_bind]
    rw [if_pos hc2]
    rfl
  have hfix : ∀ (l : List Cell) (init : Option Cell × Option Int),
      l.foldl (fun (acc : Option Cell × Option Int) _ => acc) init = init := by
    intro l
    induction l with
    | nil => intro init; rfl
    | cons x xs ih => intro init; rw [List.foldl_cons]; exact ih init
  rw [foldlM_eq_foldl _ (fun acc _ => acc) _ hsteps (none, none), hfix]
  rfl

/-- C10 witness: sender fuel 0 on the line grid, so even its own cell (cost
0) fails `cost > fuel - 1 = -1`. -/
theorem C10_witness : findOptimalTransferPoint lineG stateB 0 1 0 = some none :=
  C10_no_affordable_cell lineG stateB 0 1 0 (by decide)

/-- C8: evaluation at the failing input.  The taxi at `(0,0)` has assigned
passenger 1 (waiting at `(0,2)`); an explicit request to pick up passenger 0
(waiting at the taxi's own cell `(0,0)`) queues the path to passenger 1
instead — `[east, east, pickup]` — because `passenger_index if passenger_index
else self.assigned_passengers[0]` treats the index 0 as falsy.  The claim
(and the docstring) require the path to passenger 0, i.e. the queue
`[pickup]` alone.  With no assigned passengers the same call raises
`IndexError` (`none`) instead of acting on passenger 0. -/
theorem C8_failing_input_eval :
    sendTaxiToPickup lineG stateD 0 4 { actionsQueue := [], assignedPassengers := [1] }
        (some 0) =
      some { actionsQueue := [2, 2, 4], assignedPassengers := [1] } ∧
    lineG.getPath (stateD.loc 0) (stateD.pStart 0) = some ([], []) ∧
    ([2, 2, 4] : List Nat) ≠ [4] ∧
    sendTaxiToPickup lineG stateD 0 4 { actionsQueue := [], assignedPassengers := [] }
        (some 0) = none := by
  refine ⟨by decide, by decide, by decide, by decide⟩

/-- C5 counterexample: on the bordered one-column two-row map, the only edge
is a south step, but `get_path` encodes it as action 2 (east) because the
node-index delta is `+cols = +1`; applying the claimed action semantics
(2 = east) from `(0,0)` yields `(0,1)`, not the returned cell `(1,0)`. -/
theorem C5_counterexample :
    vertG.Conn (0, 0) (1, 0) ∧
    vertG.getPath (0, 0) (1, 0) = some ([(1, 0)], [2]) ∧
    trace (0, 0) [2] = [(0, 1)] ∧ (((0, 1) : Cell) ≠ ((1, 0) : Cell)) := by decide

/-- C5 (amended): on a no-wrap grid with at least two columns, `get_path` of
a cell to itself is the empty pair with cost 0, and for every connected pair
the action list's length equals `path_cost` and applying the actions
(0 = south, 1 = north, 2 = east, 3 = west) from the origin visits exactly the
returned cell sequence, ending at the target. -/
theorem C5_amended_path_trace (g : Grid) (hw : g.NoWrap) (hcols : 2 ≤ g.cols)
    (origin target : Cell) (hvo : g.ValidCell origin) (hvt : g.ValidCell target)
    (hconn : g.Conn origin target) :
    (g.getPath origin origin = some ([], []) ∧ g.pathCost origin origin = some 0) ∧
    ∃ cords acts, g.getPath origin target = some (cords, acts) ∧
      g.pathCost origin target = some acts.length ∧
      trace origin acts = cords ∧
      cords.getLastD origin = target := by
  have hsrc := validCell_node_lt hvo
  refine ⟨⟨getPath_self rfl, pathCost_self rfl⟩, ?_⟩
  obtain ⟨cords, acts, hgp⟩ := getPath_exists hconn
  refine ⟨cords, acts, hgp, ?_, ?_, ?_⟩
  · simp [Grid.pathCost, hgp]
  · exact getPath_trace hw hcols hsrc hvo.2 hconn hgp
  · exact getPath_last hvo.2 hvt.2 hsrc hconn hgp

/-- C5 witness: the four-cell line grid, end to end. -/
theorem C5_witness :
    (lineG.getPath (0, 0) (0, 0) = some ([], []) ∧ lineG.pathCost (0, 0) (0, 0) = some 0) ∧
    ∃ cords acts, lineG.getPath (0, 0) (0, 3) = some (cords, acts) ∧
      lineG.pathCost (0, 0) (0, 3) = some acts.length ∧
      trace (0, 0) acts = cords ∧
      cords.getLastD (0, 0) = (0, 3) :=
  C5_amended_path_trace lineG (by decide) (by decide) (0, 0) (0, 3)
    (by decide) (by decide) (by decide)

theorem getPath_cords_valid {g : Grid} {origin target : Cell} {cords : List Cell}
    {acts : List Nat} (hsrc : g.corsToNode origin < g.N) (hc : 0 < g.cols)
    (hconn : g.Conn origin target) (h : g.getPath origin target = some (cords, acts)) :
    ∀ c ∈ cords, g.ValidCell c := by
  by_cases he : g.corsToNode origin = g.corsToNode target
  · rw [getPath_self he] at h
    obtain ⟨h1, _⟩ := Prod.mk.injEq .. ▸ Option.some.inj h
    rw [← h1]
    simp
  · obtain ⟨k, hk, hgp⟩ := getPath_of_ne he hconn
    rw [h] at hgp
    obtain ⟨hcords, _⟩ := Prod.mk.injEq .. ▸ (Option.some.inj hgp).symm
    intro c hcmem
    rw [← hcords] at hcmem
    obtain ⟨n, hn1, hn2⟩ := List.mem_map.mp hcmem
    obtain ⟨_, _, _, hbound, _⟩ := pathBack_spec hsrc k _ (distN_mem hk).1
    rw [← hn2]
    exact nodeToCors_valid (hbound n hn1) hc

theorem offRoadEntry_eq {g : Grid} {s : EnvState} {fromI : Nat} {point : Cell}
    (hF : g.corsToNode (s.loc fromI) < g.N) (hconn : g.Conn (s.loc fromI) point)
    (hfuel : 1 ≤ s.fuel fromI) :
    offRoadEntry g s fromI (s.fuel fromI - 1) point =
      some (h1Shortfall g s fromI point, specH1Point g s fromI point) := by
  obtain ⟨cords, acts, hgp⟩ := getPath_exists hconn
  have hcost := pathCost_eq_costD hF hconn
  have hlen : acts.length = g.costD (s.loc fromI) point := by
    have h2 : g.pathCost (s.loc fromI) point = some acts.length := by
      simp [Grid.pathCost, hgp]
    rw [h2] at hcost
    exact Option.some.inj hcost
  have hcl : cords.length = acts.length := getPath_lengths hgp
  have hshort : h1Shortfall g s fromI point =
      max 0 ((acts.length : Int) - (s.fuel fromI - 1)) := by
    unfold h1Shortfall
    rw [hlen]
  unfold offRoadEntry
  rw [hgp]
  simp only [Option.bind_eq_bind, Option.some_bind]
  by_cases hz : max 0 ((acts.length : Int) - (s.fuel fromI - 1)) > 0
  · rw [if_pos hz]
    have hnn : (0 : Int) ≤ min (s.fuel fromI - 1) (acts.length : Int) := by omega
    have htn : (min (s.fuel fromI - 1) (acts.length : Int)).toNat =
        min (s.fuel fromI - 1).toNat acts.length := by omega
    have hlt : (min (s.fuel fromI - 1) (acts.length : Int)).toNat <
        (s.loc fromI :: cords).length := by
      simp only [List.length_cons, hcl]
      omega
    rw [pyIndex_toNat _ _ hnn hlt (s.loc fromI)]
    simp only [Option.some_bind]
    unfold specH1Point
    rw [if_neg (by rw [hshort]; omega), hgp, htn, hshort]
    rfl
  · rw [if_neg hz]
    unfold specH1Point
    rw [if_pos (by rw [hshort]; omega)]
    have hz0 : max 0 ((acts.length : Int) - (s.fuel fromI - 1)) = 0 := by omega
    rw [hshort, hz0]
    rfl

theorem h1_eq_spec (g : Grid) (s : EnvState) (fromI toI pI : Nat)
    (hcon : g.Connected) (hlocF : g.ValidCell (s.loc fromI))
    (hlocT : g.ValidCell (s.loc toI)) (hdest : g.ValidCell (s.pDest pI))
    (hfuel : 1 ≤ s.fuel fromI) :
    findTransferPointH1 g s fromI toI pI = specTransferH1 g s fromI toI pI := by
  have hc0 : 0 < g.cols := by
    have := hlocF.2
    omega
  have hT := validCell_node_lt hlocT
  have hF := validCell_node_lt hlocF
  have hconnTD := connected_conn hcon hlocT hdest
  obtain ⟨cords, acts, hgp⟩ := getPath_exists hconnTD
  unfold findTransferPointH1 specTransferH1
  rw [hgp]
  simp only [Option.bind_eq_bind, Option.some_bind]
  have hvalid : ∀ point ∈ s.loc toI :: cords, g.ValidCell point := by
    intro point hpt
    rcases List.mem_cons.mp hpt with rfl | hmem
    · exact hlocT
    · exact getPath_cords_valid hT hc0 hconnTD hgp point hmem
  have hmapm : (s.loc toI :: cords).mapM (offRoadEntry g s fromI (s.fuel fromI - 1)) =
      some ((s.loc toI :: cords).map
        (fun point => (h1Shortfall g s fromI point, specH1Point g s fromI point))) := by
    apply mapM_eq_map
    intro point hpt
    exact offRoadEntry_eq hF (connected_conn hcon hlocF (hvalid point hpt)) hfuel
  rw [hmapm]
  simp only [Option.some_bind]
  rw [minByKey_fst_map_pair (h1Shortfall g s fromI) (specH1Point g s fromI)
    (s.loc toI :: cords)]
  cases hbest : minByKey (h1Shortfall g s fromI) (s.loc toI :: cords) with
  | none => simp [minByKey] at hbest
  | some best => simp

/-- C3 counterexample: with sender fuel 0 the Python negative index
`path_cords[min(-1, len)]` selects the LAST cell of the sender's path — the
candidate itself, at sender cost 2 — not a cell the sender can reach within
`fuel - 1 = -1` steps; the claimed associated point (clamped to the sender's
reachable prefix) is the sender's own location `(0,0)`. -/
theorem C3_counterexample :
    findTransferPointH1 lineG stateB 0 1 0 = some (0, 2) ∧
    specTransferH1 lineG stateB 0 1 0 = some (0, 0) ∧
    lineG.costD (stateB.loc 0) (0, 2) = 2 ∧
    ¬((2 : Int) ≤ stateB.fuel 0 - 1) ∧
    findTransferPointH1 lineG stateB 0 1 0 ≠ specTransferH1 lineG stateB 0 1 0 := by
  refine ⟨by decide, by decide, by decide, by decide, by decide⟩

/-- C3 (amended): for sender fuel at least 1, `find_transfer_point_h1`
enumerates the receiver's location followed by its shortest path to the
destination, selects the first candidate of minimal sender shortfall
`max(0, sender_cost - (sender_fuel - 1))`, and returns the candidate itself
when the shortfall is 0, otherwise the cell of the sender's path at index
`sender_fuel - 1`. -/
theorem C3_h1_first_min_shortfall (g : Grid) (s : EnvState) (fromI toI pI : Nat)
    (hcon : g.Connected) (hlocF : g.ValidCell (s.loc fromI))
    (hlocT : g.ValidCell (s.loc toI)) (hdest : g.ValidCell (s.pDest pI))
    (hfuel : 1 ≤ s.fuel fromI) :
    findTransferPointH1 g s fromI toI pI = specTransferH1 g s fromI toI pI :=
  h1_eq_spec g s fromI toI pI hcon hlocF hlocT hdest hfuel

/-- C3 witness: sender fuel 3 on the line grid. -/
theorem C3_witness :
    findTransferPointH1 lineG stateC 0 1 0 = specTransferH1 lineG stateC 0 1 0 :=
  C3_h1_first_min_shortfall lineG stateC 0 1 0 (by decide) (by decide) (by decide)
    (by decide) (by decide)

theorem transferScore_eq {g : Grid} {s : EnvState} {toI : Nat} {dest tp : Cell}
    (hT : g.corsToNode (s.loc toI) < g.N) (hTP : g.corsToNode tp < g.N)
    (hc1 : g.Conn (s.loc toI) tp) (hc2 : g.Conn tp dest) :
    transferScore g s toI dest tp = some (residualAt g s toI dest tp) := by
  unfold transferScore residualAt
  rw [pathCost_eq_costD hT hc1, pathCost_eq_costD hTP hc2]
  simp only [Option.bind_eq_bind, Option.some_bind]
  by_cases hcond : (g.costD (s.loc toI) tp : Int) > s.fuel toI - 1
  · rw [if_pos hcond, if_pos hcond]
    rfl
  · rw [if_neg hcond, if_neg hcond]
    rfl

theorem optStep_eq {g : Grid} {s : EnvState} {fromI toI : Nat} {dest tp : Cell}
    (hF : g.corsToNode (s.loc fromI) < g.N) (hT : g.corsToNode (s.loc toI) < g.N)
    (hTP : g.corsToNode tp < g.N)
    (hcF : g.Conn (s.loc fromI) tp) (hcT : g.Conn (s.loc toI) tp) (hcD : g.Conn tp dest)
    (acc : Option Cell × Option Int) :
    optStep g s fromI toI dest acc tp = some (optStepP g s fromI toI dest acc tp) := by
  unfold optStep optStepP
  rw [pathCost_eq_costD hF hcF]
  simp only [Option.bind_eq_bind, Option.some_bind]
  by_cases hcond : (g.costD (s.loc fromI) tp : Int) > s.fuel fromI - 1
  · rw [if_pos hcond, if_neg (by omega)]
    rfl
  · rw [if_neg hcond, if_pos (by omega), transferScore_eq hT hTP hcT hcD]
    simp only [Option.some_bind]
    split <;> rfl

theorem optFold_eq (g : Grid) (s : EnvState) (fromI toI pI : Nat)
    (hcon : g.Connected) (hlocF : g.ValidCell (s.loc fromI))
    (hlocT : g.ValidCell (s.loc toI)) (hdest : g.ValidCell (s.pDest pI)) :
    optFold g s fromI toI pI = some
      (match minByKey (residualAt g s toI (s.pDest pI)) (affordableCells g s fromI) with
        | none => ((none : Option Cell), (none : Option Int))
        | some m => (some m, some (residualAt g s toI (s.pDest pI) m))) := by
  unfold optFold
  have hsteps : ∀ (acc : Option Cell × Option Int), ∀ tp ∈ cellsRowMajor g,
      optStep g s fromI toI (s.pDest pI) acc tp =
        some (optStepP g s fromI toI (s.pDest pI) acc tp) := by
    intro acc tp htp
    have hv := mem_cellsRowMajor.mp htp
    exact optStep_eq (validCell_node_lt hlocF) (validCell_node_lt hlocT)
      (validCell_node_lt hv) (connected_conn hcon hlocF hv)
      (connected_conn hcon hlocT hv) (connected_conn hcon hv hdest) acc
  rw [foldlM_eq_foldl _ _ _ hsteps (none, none)]
  have hP : optStepP g s fromI toI (s.pDest pI) =
      fun (acc : Option Cell × Option Int) tp =>
        if (g.costD (s.loc fromI) tp : Int) ≤ s.fuel fromI - 1 then
          (if ltInf (residualAt g s toI (s.pDest pI) tp) acc.2 then
            (some tp, some (residualAt g s toI (s.pDest pI) tp)) else acc)
        else acc := rfl
  rw [hP, foldl_skipmin_none (residualAt g s toI (s.pDest pI))
    (fun tp => (g.costD (s.loc fromI) tp : Int) ≤ s.fuel fromI - 1) (cellsRowMajor g)]
  have hfl : affordableCells g s fromI = (cellsRowMajor g).filter
      (fun tp => decide ((g.costD (s.loc fromI) tp : Int) ≤ s.fuel fromI - 1)) := rfl
  rw [hfl]
  cases minByKey (residualAt g s toI (s.pDest pI))
      ((cellsRowMajor g).filter
        (fun tp => decide ((g.costD (s.loc fromI) tp : Int) ≤ s.fuel fromI - 1))) with
  | none => rfl
  | some m => rfl

theorem optimal_eq_spec (g : Grid) (s : EnvState) (fromI toI pI : Nat)
    (hcon : g.Connected) (hlocF : g.ValidCell (s.loc fromI))
    (hlocT : g.ValidCell (s.loc toI)) (hdest : g.ValidCell (s.pDest pI)) :
    findOptimalTransferPoint g s fromI toI pI =
      some (specOptimalReceiver g s fromI toI pI) := by
  unfold findOptimalTransferPoint specOptimalReceiver
  rw [optFold_eq g s fromI toI pI hcon hlocF hlocT hdest]
  cases minByKey (residualAt g s toI (s.pDest pI)) (affordableCells g s fromI) with
  | none => rfl
  | some m => rfl

/-- C1 counterexample: on the line grid with the sender at `(0,1)` (fuel 10),
the receiver at `(0,0)` (fuel 3) and destination `(0,3)`, the code returns
`(0,3)` while the claimed sender-cost score has its first minimum (score 0)
at `(0,1)`: the code's second score branch adds the RECEIVER's cost to the
cell, not the sender's. -/
theorem C1_counterexample :
    findOptimalTransferPoint lineG stateA 0 1 0 = some (some (0, 3)) ∧
    claimOptimalSender lineG stateA 0 1 0 = some (0, 1) ∧
    claimScoreSender lineG stateA 0 1 (stateA.pDest 0) (0, 1) = 0 ∧
    residualAt lineG stateA 1 (stateA.pDest 0) (0, 1) = 1 ∧
    findOptimalTransferPoint lineG stateA 0 1 0 ≠
      (claimOptimalSender lineG stateA 0 1 0).map some := by
  refine ⟨by decide, by decide, by decide, by decide, by decide⟩

/-- C1 (amended): `find_optimal_transfer_point` scans the cells in row-major
order, skips cells whose sender cost exceeds `sender_fuel - 1`, scores a
cell the receiver cannot afford by its distance to the destination and every
other cell by `max(0, (RECEIVER_cost_to_cell + cost_from_cell_to_dest) -
(receiver_fuel - 1))`, and returns the first cell of minimal score (the
empty value when every cell is skipped). -/
theorem C1_optimal_scan_receiver_cost (g : Grid) (s : EnvState) (fromI toI pI : Nat)
    (hcon : g.Connected) (hlocF : g.ValidCell (s.loc fromI))
    (hlocT : g.ValidCell (s.loc toI)) (hdest : g.ValidCell (s.pDest pI)) :
    findOptimalTransferPoint g s fromI toI pI =
      some (specOptimalReceiver g s fromI toI pI) :=
  optimal_eq_spec g s fromI toI pI hcon hlocF hlocT hdest

/-- C1 witness: the counterexample state itself, against the corrected
(receiver-cost) description. -/
theorem C1_witness :
    findOptimalTransferPoint lineG stateA 0 1 0 =
      some (specOptimalReceiver lineG stateA 0 1 0) :=
  C1_optimal_scan_receiver_cost lineG stateA 0 1 0 (by decide) (by decide) (by decide)
    (by decide)

theorem costD_of_pathCost {g : Grid} {a b : Cell} {c : Nat} (h : g.pathCost a b = some c) :
    g.costD a b = c := by
  unfold Grid.costD
  rw [h]
  rfl

theorem costD_self {g : Grid} {a : Cell} : g.costD a a = 0 :=
  costD_of_pathCost (pathCost_self rfl)

theorem minByKey_of_ne_nil {α β : Type} [LinearOrder β] (key : α → β) {l : List α}
    (h : l ≠ []) : ∃ m, minByKey key l = some m := by
  cases l with
  | nil => exact absurd rfl h
  | cons x xs => exact ⟨_, rfl⟩

theorem getD_mem_of_lt {α : Type} : ∀ (l : List α) (i : Nat) (d : α), i < l.length →
    l.getD i d ∈ l := by
  intro l
  induction l with
  | nil => intro i d h; simp at h
  | cons x xs ih =>
    intro i d h
    cases i with
    | zero => simp
    | succ n =>
      rw [List.getD_cons_succ]
      exact List.mem_cons.mpr (Or.inr (ih n d (by simpa using h)))

theorem getD_congr_default {α : Type} : ∀ (l : List α) (i : Nat) (d1 d2 : α),
    i < l.length → l.getD i d1 = l.getD i d2 := by
  intro l
  induction l with
  | nil => intro i d1 d2 h; simp at h
  | cons x xs ih =>
    intro i d1 d2 h
    cases i with
    | zero => rfl
    | succ n =>
      rw [List.getD_cons_succ, List.getD_cons_succ]
      exact ih n d1 d2 (by simpa using h)

/-- A cell at index `i ≤ sender_fuel - 1` of a sender path (own location
prepended) is not skipped by the exhaustive scan. -/
theorem pathCell_affordable {g : Grid} {s : EnvState} {fromI : Nat} {target : Cell}
    {cords : List Cell} {acts : List Nat} (hcon : g.Connected)
    (hlocF : g.ValidCell (s.loc fromI)) (htv : g.ValidCell target)
    (hgp : g.getPath (s.loc fromI) target = some (cords, acts))
    (d : Cell) (i : Nat) (hi : i < cords.length + 1)
    (hif : (i : Int) ≤ s.fuel fromI - 1) :
    (s.loc fromI :: cords).getD i d ∈ affordableCells g s fromI := by
  have hc0 : 0 < g.cols := by
    have := hlocF.2
    omega
  have hsrc := validCell_node_lt hlocF
  have hconn := connected_conn hcon hlocF htv
  have hd : (s.loc fromI :: cords).getD i d = (s.loc fromI :: cords).getD i (0, 0) :=
    getD_congr_default _ i d (0, 0) (by simpa using hi)
  obtain ⟨hconn2, c, hc1, hc2⟩ := getPath_initSegment_cost hsrc hconn hgp i hi
  have hvalid : g.ValidCell ((s.loc fromI :: cords).getD i (0, 0)) := by
    have hmem := getD_mem_of_lt (s.loc fromI :: cords) i (0, 0) (by simpa using hi)
    rcases List.mem_cons.mp hmem with heq | hmem2
    · rw [heq]
      exact hlocF
    · exact getPath_cords_valid hsrc hc0 hconn hgp _ hmem2
  rw [hd]
  unfold affordableCells
  rw [List.mem_filter]
  refine ⟨mem_cellsRowMajor.mpr hvalid, ?_⟩
  rw [decide_eq_true_eq, costD_of_pathCost hc1]
  omega

/-- C2: for a fixed two-taxi configuration the residual distance achieved at
the exhaustive strategy's transfer point is at most the residual achieved at
H1's point and at most the residual achieved at H2's point. -/
theorem C2_optimal_beats_heuristics (g : Grid) (s : EnvState) (fromI toI pI : Nat)
    (hcon : g.Connected) (hlocF : g.ValidCell (s.loc fromI))
    (hlocT : g.ValidCell (s.loc toI)) (hdest : g.ValidCell (s.pDest pI))
    (hfuel : 1 ≤ s.fuel fromI) :
    ∃ p, findOptimalTransferPoint g s fromI toI pI = some (some p) ∧
      (∀ q1, findTransferPointH1 g s fromI toI pI = some q1 →
        residualAt g s toI (s.pDest pI) p ≤ residualAt g s toI (s.pDest pI) q1) ∧
      (∀ q2, findTransferPointH2 g s fromI pI = some q2 →
        residualAt g s toI (s.pDest pI) p ≤ residualAt g s toI (s.pDest pI) q2) := by
  have hc0 : 0 < g.cols := by
    have := hlocF.2
    omega
  have hselfmem : s.loc fromI ∈ affordableCells g s fromI := by
    unfold affordableCells
    rw [List.mem_filter]
    refine ⟨mem_cellsRowMajor.mpr hlocF, ?_⟩
    rw [decide_eq_true_eq, costD_self]
    omega
  obtain ⟨p, hp⟩ := minByKey_of_ne_nil (residualAt g s toI (s.pDest pI))
    (List.ne_nil_of_mem hselfmem)
  refine ⟨p, ?_, ?_, ?_⟩
  · rw [optimal_eq_spec g s fromI toI pI hcon hlocF hlocT hdest]
    unfold specOptimalReceiver
    rw [hp]
  · intro q1 hq1
    rw [h1_eq_spec g s fromI toI pI hcon hlocF hlocT hdest hfuel] at hq1
    have hconnTD := connected_conn hcon hlocT hdest
    obtain ⟨cordsT, actsT, hgpT⟩ := getPath_exists hconnTD
    unfold specTransferH1 at hq1
    rw [hgpT] at hq1
    simp only [Option.bind_eq_bind, Option.some_bind] at hq1
    cases hbest : minByKey (h1Shortfall g s fromI) (s.loc toI :: cordsT) with
    | none => simp [minByKey] at hbest
    | some best =>
      rw [hbest] at hq1
      simp only [Option.some_bind] at hq1
      have hq1eq : q1 = specH1Point g s fromI best := (Option.some.inj hq1).symm
      have hbmem := minByKey_mem hbest
      have hbvalid : g.ValidCell best := by
        rcases List.mem_cons.mp hbmem with rfl | hmem
        · exact hlocT
        · exact getPath_cords_valid (validCell_node_lt hlocT) hc0 hconnTD hgpT best hmem
      have hq1mem : q1 ∈ affordableCells g s fromI := by
        rw [hq1eq]
        unfold specH1Point
        by_cases hz : h1Shortfall g s fromI best = 0
        · rw [if_pos hz]
          unfold affordableCells
          rw [List.mem_filter]
          refine ⟨mem_cellsRowMajor.mpr hbvalid, ?_⟩
          rw [decide_eq_true_eq]
          unfold h1Shortfall at hz
          omega
        · rw [if_neg hz]
          obtain ⟨cords2, acts2, hgp2⟩ := getPath_exists (connected_conn hcon hlocF hbvalid)
          rw [hgp2]
          have hl2 := getPath_lengths hgp2
          apply pathCell_affordable hcon hlocF hbvalid hgp2 (s.loc fromI)
          · show min (s.fuel fromI - 1).toNat acts2.length < cords2.length + 1
            omega
          · show ((min (s.fuel fromI - 1).toNat acts2.length : Nat) : Int) ≤ s.fuel fromI - 1
            omega
      exact minByKey_le hp q1 hq1mem
  · intro q2 hq2
    obtain ⟨cords, acts, hgp, hlen, hmain, _, _⟩ := h2_clamp_spec g s fromI pI hcon hlocF hdest
    rw [hmain] at hq2
    have hq2eq : q2 = (s.loc fromI :: cords).getD
        (min (s.fuel fromI - 1).toNat acts.length) (s.loc fromI) :=
      (Option.some.inj hq2).symm
    have hq2mem : q2 ∈ affordableCells g s fromI := by
      rw [hq2eq]
      apply pathCell_affordable hcon hlocF hdest hgp (s.loc fromI)
      · omega
      · omega
    exact minByKey_le hp q2 hq2mem

/-- C2 witness: sender fuel 10, receiver fuel 3 on the line grid. -/
theorem C2_witness :
    ∃ p, findOptimalTransferPoint lineG stateA 0 1 0 = some (some p) ∧
      (∀ q1, findTransferPointH1 lineG stateA 0 1 0 = some q1 →
        residualAt lineG stateA 1 (stateA.pDest 0) p ≤
          residualAt lineG stateA 1 (stateA.pDest 0) q1) ∧
      (∀ q2, findTransferPointH2 lineG stateA 0 0 = some q2 →
        residualAt lineG stateA 1 (stateA.pDest 0) p ≤
          residualAt lineG stateA 1 (stateA.pDest 0) q2) :=
  C2_optimal_beats_heuristics lineG stateA 0 1 0 (by decide) (by decide) (by decide)
    (by decide) (by decide)

end MultiTaxi
